import Mathlib

/-!
Signed cookies of `pkg/encryption/utils.go`

A shallow embedding of the package `encryption` (`SecretBytes`, `SignedValue`,
`Validate`, `cookieSignature`, `checkSignature`, `checkHmac`) together with the
parts of the Go standard library the code calls: `strings.Split`,
`strings.TrimRight`, `strconv.Atoi`, `fmt.Sprintf("%d")`, `encoding/base64`
(`URLEncoding`, `RawURLEncoding`), `crypto/hmac`, `crypto/sha256`,
`crypto/sha1` and the arithmetic of `time.Time` and `time.Duration`.

Conventions of the embedding.

* A Go `string` and a Go `[]byte` are both a `List Byte`; the `nil` slice and the
  empty slice are both `[]`.
* A `time.Time` is an instant counted in nanoseconds since the Unix epoch, a
  mathematical integer: the embedding does not bound it to the range Go can
  represent. `Time.Unix` returns an `int64` in Go; `Time.representable` says
  that it does so here.
* A `time.Duration` is a number of nanoseconds, an `int64` in Go. The one
  product of durations the code computes at run time, `expiration * -1`, is
  `mulInt64`, which wraps around as the `int64` product does: the smallest
  `int64` times `-1` is the smallest `int64` again.
* `time.Now()` is an explicit argument. `Validate` reads the clock twice;
  `ValidateClock` takes the two readings and `Validate` is the case where both
  reads return the same instant.
* `int` is 64 bits wide (`strconv.IntSize = 64`).
-/

namespace encryption

/-! ## Bytes and strings -/

/-- A Go `byte`. -/
abbrev Byte := Fin 256

/-- A Go `string` or `[]byte`. -/
abbrev Bytes := List Byte

/-- The byte of an ASCII character. -/
def byteOf (c : Char) : Byte := ⟨c.toNat % 256, Nat.mod_lt _ (by decide)⟩

/-- The bytes of an ASCII string literal. -/
def ascii (s : String) : Bytes := s.toList.map byteOf

/-- The separator of the three cookie fields, the character `|`. -/
def pipe : Byte := 124

/-! ## `strings.Split` -/

/-- `strings.Split(s, sep)` for a one-byte separator: the pieces of `s` between
the occurrences of `sep`; one more piece than there are occurrences, so the
empty string splits into one empty piece. -/
def Split : Bytes → Byte → List Bytes
  | [], _ => [[]]
  | c :: cs, sep =>
    if c = sep then [] :: Split cs sep
    else
      match Split cs sep with
      | [] => [[c]]
      | p :: ps => (c :: p) :: ps

/-! ## `strconv.Atoi` and `fmt.Sprintf("%d", n)` -/

/-- The value of an ASCII decimal digit, `none` for any other byte. -/
def digitVal (c : Byte) : Option Nat :=
  if 48 ≤ c.val ∧ c.val ≤ 57 then some (c.val - 48) else none

/-- The loop `n = n*10 + int(ch)` over the digits of a string; `none` at the
first byte that is not a digit. -/
def parseDigits : Bytes → Nat → Option Nat
  | [], acc => some acc
  | c :: cs, acc =>
    match digitVal c with
    | none => none
    | some d => parseDigits cs (acc * 10 + d)

/-- The smallest `int64`. -/
def minInt64 : Int := -9223372036854775808

/-- The largest `int64`. -/
def maxInt64 : Int := 9223372036854775807

/-- `strconv.Atoi` on a 64-bit platform: an optional sign `+` or `-`, then at
least one decimal digit, and the value must fit an `int64`; `none` is a
non-nil error (syntax or range). -/
def Atoi (s : Bytes) : Option Int :=
  match s with
  | [] => none
  | c :: cs =>
    if c = 45 then
      match cs with
      | [] => none
      | _ :: _ =>
        match parseDigits cs 0 with
        | none => none
        | some n => if -(n : Int) < minInt64 then none else some (-(n : Int))
    else if c = 43 then
      match cs with
      | [] => none
      | _ :: _ =>
        match parseDigits cs 0 with
        | none => none
        | some n => if maxInt64 < (n : Int) then none else some (n : Int)
    else
      match parseDigits s 0 with
      | none => none
      | some n => if maxInt64 < (n : Int) then none else some (n : Int)

/-- The ASCII digit of a number below ten. -/
def digitChar (d : Nat) : Byte := ⟨(48 + d % 10) % 256, Nat.mod_lt _ (by decide)⟩

/-- The decimal digits of `n`, most significant first, put in front of `acc`;
the first argument bounds the number of digits. -/
def formatDigits : Nat → Nat → Bytes → Bytes
  | 0, _, acc => acc
  | fuel + 1, n, acc =>
    if n < 10 then digitChar n :: acc
    else formatDigits fuel (n / 10) (digitChar (n % 10) :: acc)

/-- The decimal rendering of a natural number. -/
def formatNat (n : Nat) : Bytes := formatDigits (n + 1) n []

/-- `fmt.Sprintf("%d", n)`: the decimal rendering of an integer, with a leading
`-` when it is negative. -/
def formatInt (n : Int) : Bytes :=
  if n < 0 then 45 :: formatNat n.natAbs else formatNat n.natAbs

/-! ## `encoding/base64` -/

/-- A `base64.Encoding`: its 64-character alphabet and its padding character
(`none` for `NoPadding`). Decoding is not strict, as in the encodings the
package uses. -/
structure Encoding where
  /-- the alphabet, indexed by the 6-bit value -/
  encode : Bytes
  /-- the padding character -/
  padChar : Option Byte

/-- The alphabet of `base64.URLEncoding`. -/
def encodeURL : Bytes :=
  ascii "ABCDEFGHIJKLMNOPQRSTUVWXYZabcdefghijklmnopqrstuvwxyz0123456789-_"

/-- The alphabet of `base64.StdEncoding`. -/
def encodeStd : Bytes :=
  ascii "ABCDEFGHIJKLMNOPQRSTUVWXYZabcdefghijklmnopqrstuvwxyz0123456789+/"

/-- `base64.URLEncoding`: the URL-safe alphabet, padded with `=`. -/
def URLEncoding : Encoding := ⟨encodeURL, some 61⟩

/-- `base64.RawURLEncoding`: the URL-safe alphabet, no padding. -/
def RawURLEncoding : Encoding := ⟨encodeURL, none⟩

/-- `base64.StdEncoding`: the standard alphabet, padded with `=`. -/
def StdEncoding : Encoding := ⟨encodeStd, some 61⟩

namespace Encoding

/-- The character `enc.encode[v]` of a 6-bit value. -/
def encodeChar (enc : Encoding) (v : Nat) : Byte := enc.encode.getD v 0

/-- The entry `enc.decodeMap[c]`: the 6-bit value of a character of the
alphabet, `none` (0xff in Go) for every other byte. -/
def decodeMap (enc : Encoding) (c : Byte) : Option Nat :=
  match enc.encode.indexOf c with
  | i => if i < enc.encode.length then some i else none

/-- The padding a final group of the encoding ends with: `k` padding
characters, nothing under `NoPadding`. -/
def padding (enc : Encoding) (k : Nat) : Bytes :=
  match enc.padChar with
  | none => []
  | some p => List.replicate k p

/-- `enc.EncodeToString(src)`: every three bytes give four characters; a last
group of one or two bytes gives two or three characters and the padding. -/
def EncodeToString (enc : Encoding) : Bytes → Bytes
  | [] => []
  | [a] =>
    let val := a.val * 65536
    enc.encodeChar (val / 262144 % 64) :: enc.encodeChar (val / 4096 % 64) :: enc.padding 2
  | [a, b] =>
    let val := a.val * 65536 + b.val * 256
    enc.encodeChar (val / 262144 % 64) :: enc.encodeChar (val / 4096 % 64)
      :: enc.encodeChar (val / 64 % 64) :: enc.padding 1
  | a :: b :: c :: rest =>
    let val := a.val * 65536 + b.val * 256 + c.val
    enc.encodeChar (val / 262144 % 64) :: enc.encodeChar (val / 4096 % 64)
      :: enc.encodeChar (val / 64 % 64) :: enc.encodeChar (val % 64) :: EncodeToString enc rest

/-- The byte `byte(val >> shift)`. -/
def byteAt (val shift : Nat) : Byte := ⟨val / 2 ^ shift % 256, Nat.mod_lt _ (by decide)⟩

/-- The quanta of `Decode` on an input without line breaks. Four characters of
the alphabet give three bytes. Padding is accepted only where it ends the
input: `xx==` gives one byte and `xxx=` two, the unused low bits of the last
character being ignored. At the end of the input, a group of two or three
characters is an error for a padded encoding and gives one or two bytes for an
unpadded one; a single character is always an error. -/
def decodeQuanta (enc : Encoding) : Bytes → Option Bytes
  | [] => some []
  | [_] => none
  | [a, b] =>
    match enc.padChar, enc.decodeMap a, enc.decodeMap b with
    | none, some x, some y => some [byteAt (x * 262144 + y * 4096) 16]
    | _, _, _ => none
  | [a, b, c] =>
    match enc.padChar, enc.decodeMap a, enc.decodeMap b, enc.decodeMap c with
    | none, some x, some y, some z =>
      let val := x * 262144 + y * 4096 + z * 64
      some [byteAt val 16, byteAt val 8]
    | _, _, _, _ => none
  | a :: b :: c :: d :: rest =>
    match enc.decodeMap a, enc.decodeMap b with
    | some x, some y =>
      match enc.decodeMap c with
      | some z =>
        match enc.decodeMap d with
        | some w =>
          let val := x * 262144 + y * 4096 + z * 64 + w
          match decodeQuanta enc rest with
          | some out => some (byteAt val 16 :: byteAt val 8 :: byteAt val 0 :: out)
          | none => none
        | none =>
          if some d = enc.padChar ∧ rest = [] then
            let val := x * 262144 + y * 4096 + z * 64
            some [byteAt val 16, byteAt val 8]
          else none
      | none =>
        if some c = enc.padChar ∧ some d = enc.padChar ∧ rest = [] then
          some [byteAt (x * 262144 + y * 4096) 16]
        else none
    | _, _ => none

/-- Whether a byte is `\n` or `\r`, which `Decode` skips wherever it stands. -/
def isNewline (c : Byte) : Bool := c = 10 || c = 13

/-- `enc.DecodeString(s)`: the decoded bytes, or `none` for a non-nil error.
Line breaks are dropped, then the quanta are decoded. -/
def DecodeString (enc : Encoding) (s : Bytes) : Option Bytes :=
  decodeQuanta enc (s.filter (fun c => !isNewline c))

end Encoding

/-! ## `crypto/sha256`, `crypto/sha1` and `crypto/hmac`

Words are natural numbers below `2 ^ 32`; every addition is taken modulo
`2 ^ 32`. -/

namespace hash

/-- Addition of `uint32` values. -/
def add32 (x y : Nat) : Nat := (x + y) % 4294967296

/-- The complement `^x` of a `uint32`. -/
def not32 (x : Nat) : Nat := 4294967295 - x % 4294967296

/-- `bits.RotateLeft32(x, n)` for `0 < n < 32`. -/
def rotl (x n : Nat) : Nat := ((x <<< n) % 4294967296) ||| (x >>> (32 - n))

/-- `bits.RotateLeft32(x, -n)` for `0 < n < 32`. -/
def rotr (x n : Nat) : Nat := (x >>> n) ||| ((x <<< (32 - n)) % 4294967296)

/-- The big-endian `uint32` at the head of a byte sequence. -/
def be32 (bs : List Nat) : Nat :=
  bs.getD 0 0 * 16777216 + bs.getD 1 0 * 65536 + bs.getD 2 0 * 256 + bs.getD 3 0

/-- The first `n` big-endian words of a byte sequence. -/
def words : Nat → List Nat → List Nat
  | 0, _ => []
  | n + 1, bs => be32 bs :: words n (bs.drop 4)

/-- The `k` low bytes of `n`, most significant first. -/
def bigEndian (n : Nat) : Nat → Bytes
  | 0 => []
  | k + 1 => ⟨n / 2 ^ (8 * k) % 256, Nat.mod_lt _ (by decide)⟩ :: bigEndian n k

/-- The padding both hashes append: the byte 0x80, zero bytes up to 56 modulo
64, and the length of the message in bits as a big-endian `uint64`. -/
def pad (m : List Nat) : List Nat :=
  m ++ 128 :: List.replicate ((119 - m.length % 64) % 64) 0
    ++ (bigEndian (8 * m.length % 18446744073709551616) 8).map Fin.val

/-! ### SHA-256 -/

/-- The round constants `_K` of SHA-256. -/
def K256 : List Nat := [
  0x428a2f98, 0x71374491, 0xb5c0fbcf, 0xe9b5dba5, 0x3956c25b, 0x59f111f1, 0x923f82a4, 0xab1c5ed5,
  0xd807aa98, 0x12835b01, 0x243185be, 0x550c7dc3, 0x72be5d74, 0x80deb1fe, 0x9bdc06a7, 0xc19bf174,
  0xe49b69c1, 0xefbe4786, 0x0fc19dc6, 0x240ca1cc, 0x2de92c6f, 0x4a7484aa, 0x5cb0a9dc, 0x76f988da,
  0x983e5152, 0xa831c66d, 0xb00327c8, 0xbf597fc7, 0xc6e00bf3, 0xd5a79147, 0x06ca6351, 0x14292967,
  0x27b70a85, 0x2e1b2138, 0x4d2c6dfc, 0x53380d13, 0x650a7354, 0x766a0abb, 0x81c2c92e, 0x92722c85,
  0xa2bfe8a1, 0xa81a664b, 0xc24b8b70, 0xc76c51a3, 0xd192e819, 0xd6990624, 0xf40e3585, 0x106aa070,
  0x19a4c116, 0x1e376c08, 0x2748774c, 0x34b0bcb5, 0x391c0cb3, 0x4ed8aa4a, 0x5b9cca4f, 0x682e6ff3,
  0x748f82ee, 0x78a5636f, 0x84c87814, 0x8cc70208, 0x90befffa, 0xa4506ceb, 0xbef9a3f7, 0xc67178f2]

/-- The message schedule of SHA-256: `win` holds `w[i-16], ..., w[i-1]`; the
next `n` words are computed and returned in order. -/
def schedule256 : Nat → List Nat → List Nat → List Nat
  | 0, _, acc => acc.reverse
  | n + 1, win, acc =>
    let v1 := win.getD 14 0
    let t1 := rotr v1 17 ^^^ rotr v1 19 ^^^ (v1 >>> 10)
    let v2 := win.getD 1 0
    let t2 := rotr v2 7 ^^^ rotr v2 18 ^^^ (v2 >>> 3)
    let w := add32 (add32 (add32 t1 (win.getD 9 0)) t2) (win.getD 0 0)
    schedule256 n (win.tail ++ [w]) (w :: acc)

/-- The eight working variables `a, ..., h` of SHA-256. -/
structure State256 where
  /-- working variable a -/
  a : Nat
  /-- working variable b -/
  b : Nat
  /-- working variable c -/
  c : Nat
  /-- working variable d -/
  d : Nat
  /-- working variable e -/
  e : Nat
  /-- working variable f -/
  f : Nat
  /-- working variable g -/
  g : Nat
  /-- working variable h -/
  h : Nat

/-- One of the 64 rounds of SHA-256, with round constant `kw.1` and schedule
word `kw.2`. -/
def round256 (s : State256) (kw : Nat × Nat) : State256 :=
  let t1 := add32 (add32 (add32 (add32 s.h (rotr s.e 6 ^^^ rotr s.e 11 ^^^ rotr s.e 25))
    ((s.e &&& s.f) ^^^ (not32 s.e &&& s.g))) kw.1) kw.2
  let t2 := add32 (rotr s.a 2 ^^^ rotr s.a 13 ^^^ rotr s.a 22)
    ((s.a &&& s.b) ^^^ (s.a &&& s.c) ^^^ (s.b &&& s.c))
  ⟨add32 t1 t2, s.a, s.b, s.c, add32 s.d t1, s.e, s.f, s.g⟩

/-- The compression of one 64-byte block into the chaining value. -/
def block256 (s : State256) (p : List Nat) : State256 :=
  let w16 := words 16 p
  let w := w16 ++ schedule256 48 w16 []
  let r := (K256.zip w).foldl round256 s
  ⟨add32 s.a r.a, add32 s.b r.b, add32 s.c r.c, add32 s.d r.d,
   add32 s.e r.e, add32 s.f r.f, add32 s.g r.g, add32 s.h r.h⟩

/-- The compression of the first `n` blocks of `p`. -/
def blocks256 : Nat → State256 → List Nat → State256
  | 0, s, _ => s
  | n + 1, s, p => blocks256 n (block256 s p) (p.drop 64)

/-- The initial chaining value of SHA-256. -/
def init256 : State256 :=
  ⟨0x6a09e667, 0xbb67ae85, 0x3c6ef372, 0xa54ff53a, 0x510e527f, 0x9b05688c, 0x1f83d9ab, 0x5be0cd19⟩

/-- The SHA-256 digest of a message: 32 bytes. -/
def sum256 (m : Bytes) : Bytes :=
  let p := pad (m.map Fin.val)
  let s := blocks256 (p.length / 64) init256 p
  bigEndian s.a 4 ++ bigEndian s.b 4 ++ bigEndian s.c 4 ++ bigEndian s.d 4
    ++ bigEndian s.e 4 ++ bigEndian s.f 4 ++ bigEndian s.g 4 ++ bigEndian s.h 4

/-! ### SHA-1 -/

/-- The message schedule of SHA-1: `win` holds `w[i-16], ..., w[i-1]`. -/
def schedule1 : Nat → List Nat → List Nat → List Nat
  | 0, _, acc => acc.reverse
  | n + 1, win, acc =>
    let tmp := win.getD 13 0 ^^^ win.getD 8 0 ^^^ win.getD 2 0 ^^^ win.getD 0 0
    let w := rotl tmp 1
    schedule1 n (win.tail ++ [w]) (w :: acc)

/-- The five working variables `a, ..., e` of SHA-1. -/
structure State1 where
  /-- working variable a -/
  a : Nat
  /-- working variable b -/
  b : Nat
  /-- working variable c -/
  c : Nat
  /-- working variable d -/
  d : Nat
  /-- working variable e -/
  e : Nat

/-- The function `f` and the constant of round `i` of SHA-1. -/
def f1 (i b c d : Nat) : Nat × Nat :=
  if i < 20 then ((b &&& c) ||| (not32 b &&& d), 0x5A827999)
  else if i < 40 then (b ^^^ c ^^^ d, 0x6ED9EBA1)
  else if i < 60 then (((b ||| c) &&& d) ||| (b &&& c), 0x8F1BBCDC)
  else (b ^^^ c ^^^ d, 0xCA62C1D6)

/-- One of the 80 rounds of SHA-1, round `iw.1` with schedule word `iw.2`. -/
def round1 (s : State1) (iw : Nat × Nat) : State1 :=
  let fk := f1 iw.1 s.b s.c s.d
  let t := add32 (add32 (add32 (add32 (rotl s.a 5) fk.1) s.e) iw.2) fk.2
  ⟨t, s.a, rotl s.b 30, s.c, s.d⟩

/-- The compression of one 64-byte block into the chaining value. -/
def block1 (s : State1) (p : List Nat) : State1 :=
  let w16 := words 16 p
  let w := w16 ++ schedule1 64 w16 []
  let r := ((List.range 80).zip w).foldl round1 s
  ⟨add32 s.a r.a, add32 s.b r.b, add32 s.c r.c, add32 s.d r.d, add32 s.e r.e⟩

/-- The compression of the first `n` blocks of `p`. -/
def blocks1 : Nat → State1 → List Nat → State1
  | 0, s, _ => s
  | n + 1, s, p => blocks1 n (block1 s p) (p.drop 64)

/-- The initial chaining value of SHA-1. -/
def init1 : State1 := ⟨0x67452301, 0xEFCDAB89, 0x98BADCFE, 0x10325476, 0xC3D2E1F0⟩

/-- The SHA-1 digest of a message: 20 bytes. -/
def sum1 (m : Bytes) : Bytes :=
  let p := pad (m.map Fin.val)
  let s := blocks1 (p.length / 64) init1 p
  bigEndian s.a 4 ++ bigEndian s.b 4 ++ bigEndian s.c 4 ++ bigEndian s.d 4 ++ bigEndian s.e 4

end hash

/-- A hash constructor `func() hash.Hash`, as `hmac.New` receives it: the block
size of the hash and the digest it computes of everything written to it. -/
structure Signer where
  /-- the value of `BlockSize()` -/
  BlockSize : Nat
  /-- the digest `Sum(nil)` of the bytes written -/
  Sum : Bytes → Bytes

/-- The constructor `sha256.New`. -/
def sha256New : Signer := ⟨64, hash.sum256⟩

/-- The constructor `sha1.New`. -/
def sha1New : Signer := ⟨64, hash.sum1⟩

namespace hmac

/-- The byte `b ^ x`. -/
def xorByte (x : Nat) (b : Byte) : Byte := ⟨(b.val ^^^ x) % 256, Nat.mod_lt _ (by decide)⟩

/-- The key as `hmac.New` lays it out: a key longer than a block is replaced
by its digest, and the result is filled with zero bytes up to the block size. -/
def blockKey (h : Signer) (key : Bytes) : Bytes :=
  let k := if h.BlockSize < key.length then h.Sum key else key
  k ++ List.replicate (h.BlockSize - k.length) 0

/-- The digest `Sum(nil)` of the HMAC built by `hmac.New(h, key)` after `msg`
has been written to it: the outer hash of `opad` and the inner hash of `ipad`
and the message. -/
def Sum (h : Signer) (key msg : Bytes) : Bytes :=
  let k := blockKey h key
  h.Sum (k.map (xorByte 0x5c) ++ h.Sum (k.map (xorByte 0x36) ++ msg))

/-- `hmac.Equal(mac1, mac2)`: whether the two digests are the same bytes. The
comparison takes time independent of the contents; its result is equality. -/
def Equal (mac1 mac2 : Bytes) : Bool := decide (mac1 = mac2)

end hmac

/-! ## `time` -/

/-- A `time.Duration`: a number of nanoseconds, an `int64` in Go. -/
abbrev Duration := Int

/-- The `int64` an integer wraps around to: the integer congruent to it modulo
`2 ^ 64` that lies between the smallest and the largest `int64`. -/
def wrapInt64 (x : Int) : Int :=
  (x + 9223372036854775808) % 18446744073709551616 - 9223372036854775808

/-- The product `a * b` of two `int64` as Go computes it: the product of the
integers, wrapped around to an `int64`. On integers outside the range of
`int64`, which no Go value has, it is the product of the integers. -/
def mulInt64 (a b : Int) : Int :=
  if minInt64 ≤ a ∧ a ≤ maxInt64 ∧ minInt64 ≤ b ∧ b ≤ maxInt64 then wrapInt64 (a * b)
  else a * b

/-- The duration `time.Second`. -/
def Second : Duration := 1000000000

/-- The duration `time.Minute`. -/
def Minute : Duration := 60 * Second

/-- The duration `time.Hour`. -/
def Hour : Duration := 60 * Minute

/-- A `time.Time`: an instant, in nanoseconds since the Unix epoch. -/
structure Time where
  /-- nanoseconds since January 1, 1970 UTC -/
  ns : Int
deriving DecidableEq, Repr

namespace Time

/-- `time.Unix(sec, 0)`. -/
def ofUnix (sec : Int) : Time := ⟨sec * 1000000000⟩

/-- `t.Unix()`: the seconds since the epoch, rounded down. -/
def Unix (t : Time) : Int := t.ns / 1000000000

/-- `t.Add(d)`. -/
def Add (t : Time) (d : Duration) : Time := ⟨t.ns + d⟩

/-- `t.After(u)`. -/
def After (t u : Time) : Bool := decide (u.ns < t.ns)

/-- `t.Before(u)`. -/
def Before (t u : Time) : Bool := decide (t.ns < u.ns)

/-- The zero `time.Time`: January 1, year 1, 00:00:00 UTC. -/
def zero : Time := ofUnix (-62135596800)

/-- `t.Unix()` is an `int64`, as it is for every time Go can hold. -/
def representable (t : Time) : Prop := minInt64 ≤ t.Unix ∧ t.Unix ≤ maxInt64

instance (t : Time) : Decidable t.representable :=
  inferInstanceAs (Decidable (minInt64 ≤ t.Unix ∧ t.Unix ≤ maxInt64))

end Time

/-! ## `strings.TrimRight` -/

/-- `strings.TrimRight(s, cutset)` for a cutset of the one character `c`: the
string without the run of `c` at its end. -/
def TrimRight (s : Bytes) (c : Byte) : Bytes :=
  (s.reverse.dropWhile (fun b => decide (b = c))).reverse

/-! ## The package `encryption` -/

/-- An `http.Cookie`, with the two fields `Validate` reads. -/
structure Cookie where
  /-- the name of the cookie -/
  Name : Bytes
  /-- the value of the cookie -/
  Value : Bytes

/-- `cookieSignature(signer, args...)`: the padded URL-safe base64 encoding of
the HMAC keyed by `args[0]` of `args[1:]` written one after the other. The
variadic arguments are the head `key` and the remaining `args`; Go panics on
an empty argument list, which no caller passes. -/
def cookieSignature (signer : Signer) (key : Bytes) (args : List Bytes) : Bytes :=
  URLEncoding.EncodeToString (hmac.Sum signer key args.flatten)

/-- `checkHmac(input, expected)`: both strings decode and the decoded digests
are equal. -/
def checkHmac (input expected : Bytes) : Bool :=
  match URLEncoding.DecodeString input with
  | some inputMAC =>
    match URLEncoding.DecodeString expected with
    | some expectedMAC => hmac.Equal inputMAC expectedMAC
    | none => false
  | none => false

/-- `checkSignature(signature, args...)`: the signature matches the SHA-256
signature of the arguments or, failing that, the legacy SHA-1 signature. -/
def checkSignature (signature key : Bytes) (args : List Bytes) : Bool :=
  let checkSig := cookieSignature sha256New key args
  if checkHmac signature checkSig then true
  else
    let legacySig := cookieSignature sha1New key args
    checkHmac signature legacySig

/-- `SignedValue(seed, key, value, now)`: the encoded value, the Unix seconds
of `now` and the signature, joined by `|`. -/
def SignedValue (seed key value : Bytes) (now : Time) : Bytes :=
  let encodedValue := URLEncoding.EncodeToString value
  let timeStr := formatInt now.Unix
  let sig := cookieSignature sha256New seed [key, encodedValue, timeStr]
  encodedValue ++ pipe :: (timeStr ++ pipe :: sig)

/-- The body of `Validate` with the two readings of `time.Now()` as arguments:
`now₁` for the lower end of the window and `now₂` for the upper end. The result
is the triple of the named results `(value, t, ok)`, which start as
`(nil, time.Time{}, false)`; `t` is assigned as soon as the timestamp parses.
The product `expiration * -1` is the wrapping `int64` product. -/
def ValidateClock (cookie : Cookie) (seed : Bytes) (expiration : Duration)
    (now₁ now₂ : Time) : Bytes × Time × Bool :=
  match Split cookie.Value pipe with
  | [value, timestamp, sig] =>
    if checkSignature sig seed [cookie.Name, value, timestamp] then
      match Atoi timestamp with
      | none => ([], Time.zero, false)
      | some ts =>
        let t := Time.ofUnix ts
        if t.After (now₁.Add (mulInt64 expiration (-1))) && t.Before (now₂.Add (Minute * 5)) then
          match URLEncoding.DecodeString value with
          | some rawValue => (rawValue, t, true)
          | none => ([], t, false)
        else ([], t, false)
    else ([], Time.zero, false)
  | _ => ([], Time.zero, false)

/-- `Validate(cookie, seed, expiration)` when the clock reads `now`. -/
def Validate (cookie : Cookie) (seed : Bytes) (expiration : Duration) (now : Time) :
    Bytes × Time × Bool :=
  ValidateClock cookie seed expiration now now

/-- `SecretBytes(secret)`: the secret without its trailing `=` is decoded as
unpadded URL-safe base64; the decoded bytes are returned when their number is
one of 16, 24, 32, and the bytes of the secret itself otherwise. -/
def SecretBytes (secret : Bytes) : Bytes :=
  match RawURLEncoding.DecodeString (TrimRight secret 61) with
  | some b => if [16, 24, 32].any (fun i => decide (b.length = i)) then b else secret
  | none => secret

/-! ## Notions of the specification -/

/-- Whether a byte is an ASCII decimal digit. -/
def isDigit (c : Byte) : Bool := decide (48 ≤ c.val ∧ c.val ≤ 57)

/-- Whether a string is a decimal integer: an optional sign `+` or `-`
followed by at least one decimal digit and nothing else. -/
def isDecimalInteger (s : Bytes) : Bool :=
  match s with
  | [] => false
  | c :: cs =>
    if c = 45 ∨ c = 43 then !cs.isEmpty && cs.all isDigit
    else s.all isDigit

/-- The byte `b` with bit `k` flipped. -/
def flipBitByte (b : Byte) (k : Nat) : Byte :=
  ⟨(b.val ^^^ 2 ^ k) % 256, Nat.mod_lt _ (by decide)⟩

/-- The string `s` with bit `k` of the byte at index `j` flipped; `s` itself
when it has no byte at index `j`. -/
def flipBit : Bytes → Nat → Nat → Bytes
  | [], _, _ => []
  | b :: bs, 0, k => flipBitByte b k :: bs
  | b :: bs, j + 1, k => b :: flipBit bs j k

/-- The characters of padded URL-safe base64: the letters, the digits, `-`,
`_` and the padding `=`. -/
def urlSafeChars : Bytes :=
  ascii "ABCDEFGHIJKLMNOPQRSTUVWXYZabcdefghijklmnopqrstuvwxyz0123456789-_="

/-- The conditions under which `Validate` accepts a cookie: its value has the
three fields `v`, `ts`, `sig`, the signature decodes to the HMAC-SHA256 or the
HMAC-SHA1 of `Name ++ v ++ ts`, the timestamp parses as `n` and lies in the
window the code computes, from `now + expiration * -1` to `now + 5 minutes`,
and the value decodes to `raw`. -/
def Accepts (cookie : Cookie) (seed : Bytes) (expiration : Duration) (now : Time)
    (v ts sig : Bytes) (n : Int) (raw : Bytes) : Prop :=
  Split cookie.Value pipe = [v, ts, sig] ∧
  (URLEncoding.DecodeString sig = some (hmac.Sum sha256New seed (cookie.Name ++ v ++ ts)) ∨
   URLEncoding.DecodeString sig = some (hmac.Sum sha1New seed (cookie.Name ++ v ++ ts))) ∧
  Atoi ts = some n ∧
  now.ns + mulInt64 expiration (-1) < (Time.ofUnix n).ns ∧
  (Time.ofUnix n).ns < now.ns + 5 * Minute ∧
  URLEncoding.DecodeString v = some raw

/-! # Lemmas -/

set_option maxRecDepth 100000

/-! ## `strings.Split` -/

theorem Split_cons (c : Byte) (cs : Bytes) (sep : Byte) :
    Split (c :: cs) sep =
      if c = sep then [] :: Split cs sep
      else
        match Split cs sep with
        | [] => [[c]]
        | p :: ps => (c :: p) :: ps := by
  rw [Split]

theorem Split_ne_nil (s : Bytes) (sep : Byte) : Split s sep ≠ [] := by
  induction s with
  | nil => simp [Split]
  | cons c cs ih =>
    rw [Split_cons]
    split
    · simp
    · split <;> simp

theorem Split_of_not_mem {s : Bytes} {sep : Byte} (h : sep ∉ s) : Split s sep = [s] := by
  induction s with
  | nil => rfl
  | cons c cs ih =>
    have hc : c ≠ sep := fun e => h (by simp [e])
    have hcs : sep ∉ cs := fun e => h (by simp [e])
    rw [Split_cons, if_neg hc, ih hcs]

theorem Split_append {a : Bytes} {sep : Byte} (rest : Bytes) (h : sep ∉ a) :
    Split (a ++ sep :: rest) sep = a :: Split rest sep := by
  induction a with
  | nil => simp [Split]
  | cons c cs ih =>
    have hc : c ≠ sep := fun e => h (by simp [e])
    have hcs : sep ∉ cs := fun e => h (by simp [e])
    rw [List.cons_append]
    rw [Split_cons, if_neg hc, ih hcs]

theorem Split_length (s : Bytes) (sep : Byte) : (Split s sep).length = s.count sep + 1 := by
  induction s with
  | nil => rfl
  | cons c cs ih =>
    rw [Split_cons]
    by_cases hc : c = sep
    · rw [if_pos hc]; subst hc; simp [ih]
    · rw [if_neg hc]
      have : (Split cs sep) ≠ [] := Split_ne_nil cs sep
      rw [List.count_cons_of_ne (Ne.symm hc)]
      cases hsp : Split cs sep with
      | nil => exact absurd hsp this
      | cons p ps => simp [← ih, hsp]

/-- What `Split` returns determines the string: a head piece without the
separator, then the separator and the rest. -/
theorem Split_eq_cons_cons {s : Bytes} {sep : Byte} {p q : Bytes} {ps : List Bytes}
    (h : Split s sep = p :: q :: ps) :
    sep ∉ p ∧ ∃ rest, s = p ++ sep :: rest ∧ Split rest sep = q :: ps := by
  induction s generalizing p with
  | nil => simp [Split] at h
  | cons c cs ih =>
    rw [Split_cons] at h
    by_cases hc : c = sep
    · rw [if_pos hc] at h
      simp only [List.cons.injEq] at h
      obtain ⟨rfl, h2⟩ := h
      exact ⟨by simp, cs, by simp [hc], h2⟩
    · rw [if_neg hc] at h
      cases hsp : Split cs sep with
      | nil => exact absurd hsp (Split_ne_nil cs sep)
      | cons p' ps' =>
        rw [hsp] at h
        simp only [List.cons.injEq] at h
        obtain ⟨rfl, rfl⟩ := h
        obtain ⟨h1, rest, h2, h3⟩ := ih hsp
        refine ⟨?_, rest, ?_, h3⟩
        · simp only [List.mem_cons, not_or]
          exact ⟨fun e => hc e.symm, h1⟩
        · rw [h2]; simp

theorem Split_eq_singleton {s : Bytes} {sep : Byte} {p : Bytes} (h : Split s sep = [p]) :
    sep ∉ p ∧ s = p := by
  have hlen := Split_length s sep
  rw [h] at hlen
  simp only [List.length_singleton] at hlen
  have hc : s.count sep = 0 := by omega
  have hn : sep ∉ s := List.count_eq_zero.mp hc
  have := Split_of_not_mem hn
  rw [h] at this
  simp only [List.cons.injEq, and_true] at this
  subst this
  exact ⟨hn, rfl⟩

/-- A string splits into exactly the three pieces `a`, `b`, `c` if and only if
it is `a|b|c` and no piece contains the separator. -/
theorem Split_eq_three (s : Bytes) (sep : Byte) (a b c : Bytes) :
    Split s sep = [a, b, c] ↔
      sep ∉ a ∧ sep ∉ b ∧ sep ∉ c ∧ s = a ++ sep :: (b ++ sep :: c) := by
  constructor
  · intro h
    obtain ⟨ha, r1, hs, h1⟩ := Split_eq_cons_cons h
    obtain ⟨hb, r2, hr1, h2⟩ := Split_eq_cons_cons h1
    obtain ⟨hc, hr2⟩ := Split_eq_singleton h2
    subst hr2 hr1 hs
    exact ⟨ha, hb, hc, rfl⟩
  · rintro ⟨ha, hb, hc, rfl⟩
    rw [Split_append _ ha, Split_append _ hb, Split_of_not_mem hc]

/-! ## `base64.URLEncoding` -/

/-- Every character of the URL-safe alphabet decodes to its index, and is
neither the separator `|`, nor a line break, nor the padding. -/
theorem URLEncoding_alphabet : ∀ v : Fin 64,
    URLEncoding.decodeMap (URLEncoding.encodeChar v.val) = some v.val ∧
    URLEncoding.encodeChar v.val ≠ pipe ∧
    Encoding.isNewline (URLEncoding.encodeChar v.val) = false ∧
    URLEncoding.encodeChar v.val ≠ 61 := by
  decide

theorem URLEncoding_decodeMap_encodeChar {v : Nat} (h : v < 64) :
    URLEncoding.decodeMap (URLEncoding.encodeChar v) = some v :=
  (URLEncoding_alphabet ⟨v, h⟩).1

theorem URLEncoding_encodeChar_ne_pipe {v : Nat} (h : v < 64) :
    URLEncoding.encodeChar v ≠ pipe :=
  (URLEncoding_alphabet ⟨v, h⟩).2.1

theorem URLEncoding_encodeChar_not_newline {v : Nat} (h : v < 64) :
    Encoding.isNewline (URLEncoding.encodeChar v) = false :=
  (URLEncoding_alphabet ⟨v, h⟩).2.2.1

theorem URLEncoding_decodeMap_pad : URLEncoding.decodeMap 61 = none := by decide

theorem URLEncoding_padChar : URLEncoding.padChar = some 61 := rfl

theorem URLEncoding_padding (k : Nat) : URLEncoding.padding k = List.replicate k 61 := rfl

/-- A property of every character of an encoded string follows from the
property of the alphabet and of the padding character. -/
theorem URLEncoding_forall_encoded (P : Byte → Prop)
    (halpha : ∀ v, v < 64 → P (URLEncoding.encodeChar v)) (hpad : P 61) (src : Bytes) :
    ∀ c ∈ URLEncoding.EncodeToString src, P c := by
  induction src using Encoding.EncodeToString.induct URLEncoding with
  | case1 => simp [Encoding.EncodeToString]
  | case2 a =>
    intro c hc
    simp only [Encoding.EncodeToString, URLEncoding_padding, List.replicate, List.mem_cons,
      List.mem_nil_iff, or_false] at hc
    rcases hc with rfl | rfl | rfl | rfl
    · exact halpha _ (Nat.mod_lt _ (by decide))
    · exact halpha _ (Nat.mod_lt _ (by decide))
    · exact hpad
    · exact hpad
  | case3 a b =>
    intro c hc
    simp only [Encoding.EncodeToString, URLEncoding_padding, List.replicate, List.mem_cons,
      List.mem_nil_iff, or_false] at hc
    rcases hc with rfl | rfl | rfl | rfl
    · exact halpha _ (Nat.mod_lt _ (by decide))
    · exact halpha _ (Nat.mod_lt _ (by decide))
    · exact halpha _ (Nat.mod_lt _ (by decide))
    · exact hpad
  | case4 a b c rest ih =>
    intro x hx
    simp only [Encoding.EncodeToString, List.mem_cons] at hx
    rcases hx with rfl | rfl | rfl | rfl | hx
    · exact halpha _ (Nat.mod_lt _ (by decide))
    · exact halpha _ (Nat.mod_lt _ (by decide))
    · exact halpha _ (Nat.mod_lt _ (by decide))
    · exact halpha _ (Nat.mod_lt _ (by decide))
    · exact ih x hx

theorem pipe_not_mem_EncodeToString (src : Bytes) : pipe ∉ URLEncoding.EncodeToString src :=
  fun h => URLEncoding_forall_encoded (fun c => c ≠ pipe)
    (fun _ hv => URLEncoding_encodeChar_ne_pipe hv) (by decide) src pipe h rfl

theorem filter_newline_EncodeToString (src : Bytes) :
    (URLEncoding.EncodeToString src).filter (fun c => !Encoding.isNewline c)
      = URLEncoding.EncodeToString src := by
  rw [List.filter_eq_self]
  intro c hc
  have := URLEncoding_forall_encoded (fun c => Encoding.isNewline c = false)
    (fun _ hv => URLEncoding_encodeChar_not_newline hv) (by decide) src c hc
  simp [this]

theorem byteAt_eq {val shift : Nat} {a : Byte} (h : val / 2 ^ shift % 256 = a.val) :
    Encoding.byteAt val shift = a := Fin.ext h

/-- Decoding undoes encoding, quantum by quantum. -/
theorem decodeQuanta_EncodeToString (src : Bytes) :
    URLEncoding.decodeQuanta (URLEncoding.EncodeToString src) = some src := by
  induction src using Encoding.EncodeToString.induct URLEncoding with
  | case1 => simp [Encoding.EncodeToString, Encoding.decodeQuanta]
  | case2 a =>
    have ha := a.isLt
    simp only [Encoding.EncodeToString, URLEncoding_padding, List.replicate,
      Encoding.decodeQuanta,
      URLEncoding_decodeMap_encodeChar (Nat.mod_lt _ (by decide : 0 < 64)),
      URLEncoding_decodeMap_pad, URLEncoding_padChar, and_self, if_true, Option.some.injEq,
      List.cons.injEq, and_true]
    apply byteAt_eq
    norm_num
    omega
  | case3 a b =>
    have ha := a.isLt
    have hb := b.isLt
    simp only [Encoding.EncodeToString, URLEncoding_padding, List.replicate,
      Encoding.decodeQuanta,
      URLEncoding_decodeMap_encodeChar (Nat.mod_lt _ (by decide : 0 < 64)),
      URLEncoding_decodeMap_pad, URLEncoding_padChar, and_self, if_true, Option.some.injEq,
      List.cons.injEq, and_true]
    refine ⟨byteAt_eq ?_, byteAt_eq ?_⟩
    · norm_num; omega
    · norm_num; omega
  | case4 a b c rest ih =>
    have ha := a.isLt
    have hb := b.isLt
    have hc := c.isLt
    simp only [Encoding.EncodeToString, Encoding.decodeQuanta,
      URLEncoding_decodeMap_encodeChar (Nat.mod_lt _ (by decide : 0 < 64)), ih,
      Option.some.injEq, List.cons.injEq, and_true]
    refine ⟨byteAt_eq ?_, byteAt_eq ?_, byteAt_eq ?_⟩
    · norm_num; omega
    · norm_num; omega
    · norm_num; omega

/-- `DecodeString` undoes `EncodeToString`. -/
theorem DecodeString_EncodeToString (src : Bytes) :
    URLEncoding.DecodeString (URLEncoding.EncodeToString src) = some src := by
  rw [Encoding.DecodeString, filter_newline_EncodeToString, decodeQuanta_EncodeToString]

/-! ## `strconv.Atoi` and `fmt.Sprintf("%d", n)` -/

theorem digitVal_digitChar (d : Nat) : digitVal (digitChar d) = some (d % 10) := by
  have h : (48 + d % 10) % 256 = 48 + d % 10 := by omega
  simp only [digitVal, digitChar, h]
  rw [if_pos (by omega)]
  congr 1
  omega

theorem digitChar_val (d : Nat) : (digitChar d).val = 48 + d % 10 := by
  simp only [digitChar]
  omega

theorem parseDigits_append (xs ys : Bytes) (acc : Nat) :
    parseDigits (xs ++ ys) acc = (parseDigits xs acc).bind (parseDigits ys) := by
  induction xs generalizing acc with
  | nil => rfl
  | cons c cs ih =>
    simp only [List.cons_append, parseDigits]
    cases digitVal c with
    | none => rfl
    | some d => exact ih _

theorem formatDigits_acc (fuel n : Nat) (acc : Bytes) :
    formatDigits fuel n acc = formatDigits fuel n [] ++ acc := by
  induction fuel generalizing n acc with
  | zero => rfl
  | succ f ih =>
    simp only [formatDigits]
    split
    · rfl
    · rw [ih (n / 10) (digitChar (n % 10) :: acc), ih (n / 10) [digitChar (n % 10)]]
      simp

theorem parseDigits_formatDigits (fuel n : Nat) (h : n < fuel) :
    parseDigits (formatDigits fuel n []) 0 = some n := by
  induction fuel generalizing n with
  | zero => omega
  | succ f ih =>
    simp only [formatDigits]
    split
    · rename_i hn
      simp only [parseDigits, digitVal_digitChar]
      congr 1
      omega
    · rename_i hn
      rw [formatDigits_acc, parseDigits_append, ih (n / 10) (by omega)]
      simp only [Option.bind, parseDigits, digitVal_digitChar]
      congr 1
      omega

theorem parseDigits_formatNat (n : Nat) : parseDigits (formatNat n) 0 = some n :=
  parseDigits_formatDigits (n + 1) n (by omega)

/-- Every character of a decimal rendering is a digit. -/
theorem formatDigits_digits (fuel n : Nat) :
    ∀ c ∈ formatDigits fuel n [], 48 ≤ c.val ∧ c.val ≤ 57 := by
  induction fuel generalizing n with
  | zero => simp [formatDigits]
  | succ f ih =>
    intro c hc
    simp only [formatDigits] at hc
    split at hc
    · simp only [List.mem_singleton] at hc
      subst hc
      rw [digitChar_val]; omega
    · rw [formatDigits_acc] at hc
      simp only [List.mem_append, List.mem_singleton] at hc
      rcases hc with hc | rfl
      · exact ih _ c hc
      · rw [digitChar_val]; omega

theorem formatNat_digits (n : Nat) : ∀ c ∈ formatNat n, 48 ≤ c.val ∧ c.val ≤ 57 :=
  formatDigits_digits _ _

theorem formatNat_ne_nil (n : Nat) : formatNat n ≠ [] := by
  intro h
  have := parseDigits_formatNat n
  simp only [formatNat] at h this
  simp only [formatDigits] at h
  split at h
  · simp at h
  · rw [formatDigits_acc] at h
    simp at h

/-- `Atoi` reads back what `%d` prints, for every `int64`. -/
theorem Atoi_formatInt (n : Int) (hlo : minInt64 ≤ n) (hhi : n ≤ maxInt64) :
    Atoi (formatInt n) = some n := by
  unfold formatInt
  by_cases hn : n < 0
  · rw [if_pos hn]
    cases hf : formatNat n.natAbs with
    | nil => exact absurd hf (formatNat_ne_nil _)
    | cons d ds =>
      simp only [Atoi, if_true]
      rw [← hf, parseDigits_formatNat]
      simp only [minInt64] at hlo ⊢
      rw [if_neg (by omega)]
      congr 1
      omega
  · rw [if_neg hn]
    cases hf : formatNat n.natAbs with
    | nil => exact absurd hf (formatNat_ne_nil _)
    | cons d ds =>
      have hd := formatNat_digits n.natAbs d (by rw [hf]; simp)
      have h45 : d ≠ 45 := by
        intro e; rw [e] at hd; exact absurd hd (by decide)
      have h43 : d ≠ 43 := by
        intro e; rw [e] at hd; exact absurd hd (by decide)
      simp only [Atoi, if_neg h45, if_neg h43]
      rw [← hf, parseDigits_formatNat]
      simp only [maxInt64] at hhi ⊢
      rw [if_neg (by omega)]
      congr 1
      omega

theorem pipe_not_mem_formatInt (n : Int) : pipe ∉ formatInt n := by
  unfold formatInt
  have hnat : pipe ∉ formatNat n.natAbs := by
    intro h
    exact absurd (formatNat_digits _ _ h) (by decide)
  split
  · simp only [List.mem_cons, not_or]
    exact ⟨by decide, hnat⟩
  · exact hnat

/-! ## Signatures -/

theorem checkHmac_EncodeToString (input d : Bytes) :
    checkHmac input (URLEncoding.EncodeToString d) =
      decide (URLEncoding.DecodeString input = some d) := by
  unfold checkHmac
  rw [DecodeString_EncodeToString]
  cases h : URLEncoding.DecodeString input with
  | none => simp
  | some m => simp [hmac.Equal]

/-- The signature check passes exactly when the signature decodes to the
HMAC-SHA256 or to the HMAC-SHA1 of the concatenated arguments. -/
theorem checkSignature_eq_true_iff (sig key : Bytes) (args : List Bytes) :
    checkSignature sig key args = true ↔
      (URLEncoding.DecodeString sig = some (hmac.Sum sha256New key args.flatten) ∨
       URLEncoding.DecodeString sig = some (hmac.Sum sha1New key args.flatten)) := by
  unfold checkSignature cookieSignature
  simp only [checkHmac_EncodeToString]
  by_cases h : URLEncoding.DecodeString sig = some (hmac.Sum sha256New key args.flatten)
  · simp [h]
  · simp [h]

theorem flatten_three (a b c : Bytes) : [a, b, c].flatten = a ++ b ++ c := by
  simp [List.flatten]

theorem checkSignature_cookieSignature (signer : Signer) (key : Bytes) (args : List Bytes)
    (h : signer = sha256New ∨ signer = sha1New) :
    checkSignature (cookieSignature signer key args) key args = true := by
  rw [checkSignature_eq_true_iff]
  unfold cookieSignature
  rw [DecodeString_EncodeToString]
  rcases h with rfl | rfl
  · exact Or.inl rfl
  · exact Or.inr rfl

/-! ## The product `expiration * -1` -/

/-- The product by `-1` is the negative, for every duration but the smallest
`int64`. -/
theorem mulInt64_neg_one {e : Int} (h : e ≠ minInt64) : mulInt64 e (-1) = -e := by
  unfold mulInt64
  simp only [minInt64, maxInt64] at h ⊢
  split
  · unfold wrapInt64
    omega
  · omega

/-- The smallest `int64` times `-1` wraps around to itself. -/
theorem mulInt64_neg_one_min : mulInt64 minInt64 (-1) = minInt64 := by decide

theorem ne_minInt64_of_pos {e : Int} (h : 0 < e) : e ≠ minInt64 := by
  simp only [minInt64]
  omega

/-! ## `Validate` on a value of three fields -/

/-- The result of `Validate` on a cookie whose value has the three fields
`value`, `timestamp`, `sig`, case by case. -/
theorem Validate_of_Split {cookie : Cookie} {value timestamp sig : Bytes}
    (hsplit : Split cookie.Value pipe = [value, timestamp, sig])
    (seed : Bytes) (expiration : Duration) (now : Time) :
    Validate cookie seed expiration now =
      if checkSignature sig seed [cookie.Name, value, timestamp] = true then
        match Atoi timestamp with
        | none => ([], Time.zero, false)
        | some ts =>
          if now.ns + mulInt64 expiration (-1) < ts * 1000000000 ∧
              ts * 1000000000 < now.ns + 300000000000 then
            match URLEncoding.DecodeString value with
            | some rawValue => (rawValue, Time.ofUnix ts, true)
            | none => ([], Time.ofUnix ts, false)
          else ([], Time.ofUnix ts, false)
      else ([], Time.zero, false) := by
  unfold Validate ValidateClock
  rw [hsplit]
  simp only []
  by_cases hsig : checkSignature sig seed [cookie.Name, value, timestamp] = true
  · rw [if_pos hsig, if_pos hsig]
    cases hts : Atoi timestamp with
    | none => rfl
    | some ts =>
      simp only [Time.After, Time.Before, Time.Add, Time.ofUnix, Minute, Second,
        Bool.and_eq_true, decide_eq_true_eq]
      have e2 : now.ns + 60 * 1000000000 * 5 = now.ns + 300000000000 := by norm_num
      rw [e2]
  · rw [if_neg hsig, if_neg hsig]

theorem pipe_not_mem_cookieSignature (signer : Signer) (key : Bytes) (args : List Bytes) :
    pipe ∉ cookieSignature signer key args :=
  pipe_not_mem_EncodeToString _

/-- The three fields of a signed value. -/
theorem Split_SignedValue (seed key value : Bytes) (now : Time) :
    Split (SignedValue seed key value now) pipe =
      [URLEncoding.EncodeToString value, formatInt now.Unix,
       cookieSignature sha256New seed
         [key, URLEncoding.EncodeToString value, formatInt now.Unix]] := by
  unfold SignedValue
  simp only []
  rw [Split_append _ (pipe_not_mem_EncodeToString value),
    Split_append _ (pipe_not_mem_formatInt _),
    Split_of_not_mem (pipe_not_mem_cookieSignature _ _ _)]

/-- The result of `Validate` on a cookie made by `SignedValue` at time `t`,
checked when the clock reads `now`: the window decides, on the whole seconds of
`t`. -/
theorem Validate_SignedValue (seed key value : Bytes) (t : Time) (hrep : t.representable)
    (expiration : Duration) (now : Time) :
    Validate ⟨key, SignedValue seed key value t⟩ seed expiration now =
      if now.ns + mulInt64 expiration (-1) < t.Unix * 1000000000 ∧
          t.Unix * 1000000000 < now.ns + 300000000000 then
        (value, Time.ofUnix t.Unix, true)
      else ([], Time.ofUnix t.Unix, false) := by
  rw [Validate_of_Split (Split_SignedValue seed key value t)]
  rw [if_pos (checkSignature_cookieSignature _ _ _ (Or.inl rfl))]
  rw [Atoi_formatInt _ hrep.1 hrep.2]
  simp only [DecodeString_EncodeToString]

/-- The same for an expiration other than the smallest `int64`: the lower end
of the window is `now - expiration`. -/
theorem Validate_SignedValue_of_ne (seed key value : Bytes) (t : Time) (hrep : t.representable)
    {expiration : Duration} (hne : expiration ≠ minInt64) (now : Time) :
    Validate ⟨key, SignedValue seed key value t⟩ seed expiration now =
      if now.ns - expiration < t.Unix * 1000000000 ∧
          t.Unix * 1000000000 < now.ns + 300000000000 then
        (value, Time.ofUnix t.Unix, true)
      else ([], Time.ofUnix t.Unix, false) := by
  rw [Validate_SignedValue _ _ _ _ hrep, mulInt64_neg_one hne]
  have e1 : now.ns + -expiration = now.ns - expiration := by omega
  rw [e1]

/-! ## Test vectors of the hash functions -/

/-- The SHA-256 digest of `abc` (FIPS 180-4). -/
theorem sum256_abc : hash.sum256 (ascii "abc") = [
      0xba, 0x78, 0x16, 0xbf, 0x8f, 0x01, 0xcf, 0xea, 0x41, 0x41, 0x40, 0xde, 0x5d, 0xae, 0x22, 0x23,
      0xb0, 0x03, 0x61, 0xa3, 0x96, 0x17, 0x7a, 0x9c, 0xb4, 0x10, 0xff, 0x61, 0xf2, 0x00, 0x15, 0xad] := by
  decide

/-- The SHA-1 digest of `abc` (FIPS 180-4). -/
theorem sum1_abc : hash.sum1 (ascii "abc") = [
      0xa9, 0x99, 0x3e, 0x36, 0x47, 0x06, 0x81, 0x6a, 0xba, 0x3e, 0x25, 0x71, 0x78, 0x50, 0xc2, 0x6c,
      0x9c, 0xd0, 0xd8, 0x9d] := by
  decide

/-- An HMAC-SHA256 test vector. -/
theorem hmac_sha256_vector :
    hmac.Sum sha256New (ascii "key") (ascii "The quick brown fox jumps over the lazy dog") = [
      0xf7, 0xbc, 0x83, 0xf4, 0x30, 0x53, 0x84, 0x24, 0xb1, 0x32, 0x98, 0xe6, 0xaa, 0x6f, 0xb1, 0x43,
      0xef, 0x4d, 0x59, 0xa1, 0x49, 0x46, 0x17, 0x59, 0x97, 0x47, 0x9d, 0xbc, 0x2d, 0x1a, 0x3c, 0xd8] := by
  decide

/-- An HMAC-SHA1 test vector. -/
theorem hmac_sha1_vector :
    hmac.Sum sha1New (ascii "key") (ascii "The quick brown fox jumps over the lazy dog") = [
      0xde, 0x7c, 0x9b, 0x85, 0xb8, 0xb7, 0x8a, 0xa6, 0xbc, 0x8a, 0x7a, 0x36, 0xf7, 0x0a, 0x90, 0x70,
      0x1c, 0x9d, 0xb4, 0xd9] := by
  decide

/-! ## Lengths of digests and of encodings -/

theorem bigEndian_length (n k : Nat) : (hash.bigEndian n k).length = k := by
  induction k with
  | zero => rfl
  | succ k ih => simp [hash.bigEndian, ih]

theorem sum256_length (m : Bytes) : (hash.sum256 m).length = 32 := by
  simp [hash.sum256, bigEndian_length]

theorem sum1_length (m : Bytes) : (hash.sum1 m).length = 20 := by
  simp [hash.sum1, bigEndian_length]

theorem hmac_sha256_length (key msg : Bytes) : (hmac.Sum sha256New key msg).length = 32 :=
  sum256_length _

theorem hmac_sha1_length (key msg : Bytes) : (hmac.Sum sha1New key msg).length = 20 :=
  sum1_length _

theorem EncodeToString_length (src : Bytes) :
    (URLEncoding.EncodeToString src).length = 4 * ((src.length + 2) / 3) := by
  induction src using Encoding.EncodeToString.induct URLEncoding with
  | case1 => rfl
  | case2 a => simp [Encoding.EncodeToString, URLEncoding_padding]
  | case3 a b => simp [Encoding.EncodeToString, URLEncoding_padding]
  | case4 a b c rest ih =>
    simp only [Encoding.EncodeToString, List.length_cons, ih]
    omega

theorem decodeQuanta_length_bound_aux (n : Nat) :
    ∀ s b : Bytes, s.length < n → URLEncoding.decodeQuanta s = some b →
      3 * s.length ≤ 4 * b.length + 8 := by
  induction n with
  | zero => intro s b hn; omega
  | succ n ih =>
    intro s b hn h
    match s, hn, h with
    | [], _, _ => simp
    | [_], _, _ => simp
    | [_, _], _, _ => simp
    | [_, _, _], _, h => exact absurd h (by simp [Encoding.decodeQuanta, URLEncoding])
    | a :: c :: d :: f :: rest, hn, h =>
      simp only [Encoding.decodeQuanta] at h
      cases hx : URLEncoding.decodeMap a with
      | none => simp [hx] at h
      | some x =>
        cases hy : URLEncoding.decodeMap c with
        | none => simp [hx, hy] at h
        | some y =>
          simp only [hx, hy] at h
          cases hz : URLEncoding.decodeMap d with
          | none =>
            simp only [hz] at h
            split at h
            · rename_i hc
              simp only [Option.some.injEq] at h
              subst h
              obtain ⟨_, _, rfl⟩ := hc
              simp
            · exact absurd h (by simp)
          | some z =>
            simp only [hz] at h
            cases hw : URLEncoding.decodeMap f with
            | none =>
              simp only [hw] at h
              split at h
              · rename_i hc
                simp only [Option.some.injEq] at h
                subst h
                obtain ⟨_, rfl⟩ := hc
                simp
              · exact absurd h (by simp)
            | some w =>
              simp only [hw] at h
              cases hr : URLEncoding.decodeQuanta rest with
              | none => simp [hr] at h
              | some out =>
                simp only [hr, Option.some.injEq] at h
                subst h
                have := ih rest out (by simp only [List.length_cons] at hn; omega) hr
                simp only [List.length_cons]
                omega

/-- A decoded string is at least three quarters as long as its encoding, up
to the last quantum. -/
theorem decodeQuanta_length_bound (s b : Bytes) (h : URLEncoding.decodeQuanta s = some b) :
    3 * s.length ≤ 4 * b.length + 8 :=
  decodeQuanta_length_bound_aux (s.length + 1) s b (by omega) h

/-! ## Flipping a bit -/

theorem flipBit_filter_length (p : Byte → Bool) (s : Bytes) (j k : Nat) :
    (s.filter p).length ≤ ((flipBit s j k).filter p).length + 1 := by
  induction s generalizing j with
  | nil => simp [flipBit]
  | cons c cs ih =>
    cases j with
    | zero =>
      simp only [flipBit, List.filter_cons]
      by_cases h1 : p c = true <;> by_cases h2 : p (flipBitByte c k) = true <;>
        simp only [h1, h2, if_true, if_false, List.length_cons, Bool.false_eq_true] <;> omega
    | succ j =>
      simp only [flipBit, List.filter_cons]
      have := ih j
      by_cases h1 : p c = true <;>
        simp only [h1, if_true, if_false, List.length_cons, Bool.false_eq_true] <;> omega

/-! # The claims -/

theorem Time_ofUnix_Unix {t : Time} (hsec : t.ns % 1000000000 = 0) : Time.ofUnix t.Unix = t := by
  cases t with
  | mk ns =>
    simp only [Time.ofUnix, Time.Unix, Time.mk.injEq] at hsec ⊢
    omega

theorem Time_Unix_ofUnix (s : Int) : (Time.ofUnix s).Unix = s := by
  simp only [Time.ofUnix, Time.Unix]
  omega

theorem Time_Unix_mul (t : Time) :
    t.Unix * 1000000000 ≤ t.ns ∧ t.ns < t.Unix * 1000000000 + 1000000000 := by
  simp only [Time.Unix]
  omega

/-- C1, as stated, fails: a cookie signed at 1000.5 s and validated at the same
instant with an expiration of half a second is rejected, because the cookie
carries the whole second 1000, which is not after `now - expiration`. -/
theorem Validate_SignedValue_subsecond_rejected :
    (0 : Duration) < 500000000 ∧
    Validate ⟨ascii "key", SignedValue (ascii "seed") (ascii "key") (ascii "v0") ⟨1000500000000⟩⟩
        (ascii "seed") 500000000 ⟨1000500000000⟩
      = ([], Time.ofUnix 1000, false) := by
  refine ⟨by decide, ?_⟩
  rw [Validate_SignedValue _ _ _ _ (by decide)]
  decide

/-- C1 (amended): for every payload `v`, seed, key, every time `t` that is a
whole number of seconds and every expiration above zero, `Validate`, with the
clock reading `t`, of the cookie named `key` whose value is
`SignedValue(seed, key, v, t)` returns `(v, t, true)`. -/
theorem Validate_SignedValue_roundtrip (seed key v : Bytes) (t : Time) (expiration : Duration)
    (hrep : t.representable) (hsec : t.ns % 1000000000 = 0) (hexp : 0 < expiration) :
    Validate ⟨key, SignedValue seed key v t⟩ seed expiration t = (v, t, true) := by
  have hexp' : (0 : Int) < expiration := hexp
  rw [Validate_SignedValue_of_ne _ _ _ _ hrep (ne_minInt64_of_pos hexp'), Time_ofUnix_Unix hsec]
  have h := Time_Unix_mul t
  have h2 : t.Unix * 1000000000 = t.ns := by
    simp only [Time.Unix]; omega
  rw [if_pos (by omega)]

theorem Validate_SignedValue_roundtrip_witness :
    (Time.ofUnix 1000).representable ∧ (Time.ofUnix 1000).ns % 1000000000 = 0 ∧
    (0 : Duration) < Hour ∧
    Validate ⟨ascii "key", SignedValue (ascii "seed") (ascii "key") (ascii "v0") (Time.ofUnix 1000)⟩
        (ascii "seed") Hour (Time.ofUnix 1000)
      = (ascii "v0", Time.ofUnix 1000, true) :=
  ⟨by decide, by decide, by decide,
    Validate_SignedValue_roundtrip (ascii "seed") (ascii "key") (ascii "v0") (Time.ofUnix 1000) Hour
      (by decide) (by decide) (by decide)⟩

theorem five_minutes : (5 : Int) * Minute = 300000000000 := by decide

theorem Validate_of_Accepts {cookie : Cookie} {seed : Bytes} {expiration : Duration}
    {now : Time} {v ts sig : Bytes} {n : Int} {raw : Bytes}
    (h : Accepts cookie seed expiration now v ts sig n raw) :
    Validate cookie seed expiration now = (raw, Time.ofUnix n, true) := by
  obtain ⟨hsplit, hsig, hts, hlo, hhi, hv⟩ := h
  rw [Validate_of_Split hsplit]
  have hcs : checkSignature sig seed [cookie.Name, v, ts] = true := by
    rw [checkSignature_eq_true_iff, flatten_three]; exact hsig
  rw [if_pos hcs, hts]
  simp only [Time.ofUnix, five_minutes] at hlo hhi
  simp only []
  rw [if_pos ⟨hlo, hhi⟩, hv]

theorem Accepts_of_Validate_ok {cookie : Cookie} {seed : Bytes} {expiration : Duration}
    {now : Time} (hok : (Validate cookie seed expiration now).2.2 = true) :
    ∃ v ts sig n raw, Accepts cookie seed expiration now v ts sig n raw := by
  cases hsp : Split cookie.Value pipe with
  | nil => simp [Validate, ValidateClock, hsp] at hok
  | cons v l1 =>
    cases l1 with
    | nil => simp [Validate, ValidateClock, hsp] at hok
    | cons ts l2 =>
      cases l2 with
      | nil => simp [Validate, ValidateClock, hsp] at hok
      | cons sig l3 =>
        cases l3 with
        | cons x l4 => simp [Validate, ValidateClock, hsp] at hok
        | nil =>
          rw [Validate_of_Split hsp] at hok
          by_cases hcs : checkSignature sig seed [cookie.Name, v, ts] = true
          · rw [if_pos hcs] at hok
            cases hts : Atoi ts with
            | none => rw [hts] at hok; simp at hok
            | some n =>
              rw [hts] at hok
              simp only [] at hok
              by_cases hw : now.ns + mulInt64 expiration (-1) < n * 1000000000 ∧
                  n * 1000000000 < now.ns + 300000000000
              · rw [if_pos hw] at hok
                cases hv : URLEncoding.DecodeString v with
                | none => rw [hv] at hok; simp at hok
                | some raw =>
                  rw [checkSignature_eq_true_iff, flatten_three] at hcs
                  refine ⟨v, ts, sig, n, raw, hsp, hcs, hts, ?_, ?_, hv⟩
                  · simp only [Time.ofUnix]; exact hw.1
                  · simp only [Time.ofUnix, five_minutes]; exact hw.2
              · rw [if_neg hw] at hok; simp at hok
          · rw [if_neg hcs] at hok; simp at hok

/-- The exact condition of acceptance, with the window as the code computes
it: `Validate` returns `ok = true` if and only if the value of the cookie
splits on `|` into exactly three parts `v`, `ts`, `sig`, where `sig` decodes to
the HMAC-SHA256 or to the HMAC-SHA1, keyed by the seed, of `Name ++ v ++ ts`,
`ts` parses as an integer `n`, the instant `Unix(n)` is strictly after
`now + expiration * -1` and strictly before `now + 5 minutes`, and `v` decodes
to `raw`; and then the result is `(raw, Unix(n), true)`. -/
theorem Validate_ok_iff_Accepts (cookie : Cookie) (seed : Bytes) (expiration : Duration)
    (now : Time) :
    ((Validate cookie seed expiration now).2.2 = true ↔
      ∃ v ts sig n raw, Accepts cookie seed expiration now v ts sig n raw) ∧
    ∀ v ts sig n raw, Accepts cookie seed expiration now v ts sig n raw →
      Validate cookie seed expiration now = (raw, Time.ofUnix n, true) := by
  refine ⟨⟨fun hok => Accepts_of_Validate_ok hok, ?_⟩, fun v ts sig n raw h => ?_⟩
  · rintro ⟨v, ts, sig, n, raw, h⟩
    rw [Validate_of_Accepts h]
  · exact Validate_of_Accepts h

/-- For every expiration other than the smallest `int64` the lower end of the
window is `now - expiration`: the condition of acceptance with the window from
`now - expiration` to `now + 5 minutes`. -/
theorem Validate_ok_iff_of_ne (cookie : Cookie) (seed : Bytes) (expiration : Duration)
    (now : Time) (hne : expiration ≠ minInt64) :
    (Validate cookie seed expiration now).2.2 = true ↔
      ∃ v ts sig n raw,
        Split cookie.Value pipe = [v, ts, sig] ∧
        (URLEncoding.DecodeString sig = some (hmac.Sum sha256New seed (cookie.Name ++ v ++ ts)) ∨
         URLEncoding.DecodeString sig = some (hmac.Sum sha1New seed (cookie.Name ++ v ++ ts))) ∧
        Atoi ts = some n ∧
        now.ns - expiration < (Time.ofUnix n).ns ∧
        (Time.ofUnix n).ns < now.ns + 5 * Minute ∧
        URLEncoding.DecodeString v = some raw := by
  have e1 : now.ns + -expiration = now.ns - expiration := by omega
  constructor
  · intro hok
    obtain ⟨v, ts, sig, n, raw, h1, h2, h3, h4, h5, h6⟩ := Accepts_of_Validate_ok hok
    rw [mulInt64_neg_one hne, e1] at h4
    exact ⟨v, ts, sig, n, raw, h1, h2, h3, h4, h5, h6⟩
  · rintro ⟨v, ts, sig, n, raw, h1, h2, h3, h4, h5, h6⟩
    have hA : Accepts cookie seed expiration now v ts sig n raw := by
      refine ⟨h1, h2, h3, ?_, h5, h6⟩
      rw [mulInt64_neg_one hne, e1]
      exact h4
    rw [Validate_of_Accepts hA]

/-- C2 fails on the code at the expiration `math.MinInt64`: the product
`expiration * -1` wraps around to `math.MinInt64`, the lower end of the window
becomes `now - 2^63 ns`, and the cookie signed for seed `seed`, key `key`,
payload `v0` at second 1000 is accepted when the clock reads second 1000,
although its timestamp is not after `now - expiration`. -/
theorem Validate_min_expiration_accepted :
    Validate ⟨ascii "key", SignedValue (ascii "seed") (ascii "key") (ascii "v0")
        (Time.ofUnix 1000)⟩ (ascii "seed") minInt64 (Time.ofUnix 1000)
      = (ascii "v0", Time.ofUnix 1000, true) ∧
    ¬ ((Time.ofUnix 1000).ns - minInt64 < (Time.ofUnix 1000).ns) := by
  refine ⟨?_, by decide⟩
  rw [Validate_SignedValue _ _ _ _ (by decide)]
  decide

theorem not_mem_of_count_append_three (a b c : Bytes)
    (h : (a ++ pipe :: (b ++ pipe :: c)).count pipe = 2) :
    pipe ∉ a ∧ pipe ∉ b ∧ pipe ∉ c := by
  simp only [List.count_append, List.count_cons_self] at h
  refine ⟨List.count_eq_zero.mp (by omega), List.count_eq_zero.mp (by omega),
    List.count_eq_zero.mp (by omega)⟩

/-- A flipped signature cannot decode to a digest of twenty bytes. -/
theorem DecodeString_flipBit_length (d : Bytes) (hd : d.length = 32) (j k : Nat) (b : Bytes)
    (h : URLEncoding.DecodeString (flipBit (URLEncoding.EncodeToString d) j k) = some b) :
    b.length ≠ 20 := by
  intro hb
  have h1 := decodeQuanta_length_bound _ _ h
  have h2 := flipBit_filter_length (fun c => !Encoding.isNewline c)
    (URLEncoding.EncodeToString d) j k
  rw [filter_newline_EncodeToString, EncodeToString_length, hd] at h2
  omega

/-- C3, as stated, fails: in the cookie signed for seed `seed`, key `key`,
payload `v0` at second 1000, whose signature ends in `niU=`, flipping bit 1 of
the byte at index 52 (the `U`, which becomes `W`) changes only bits that
base64 decoding ignores, and the tampered cookie validates. -/
theorem Validate_flipped_signature_accepted :
    SignedValue (ascii "seed") (ascii "key") (ascii "v0") (Time.ofUnix 1000)
      = ascii "djA=|1000|BTLqgjK5m4Ux12lrja8u5k8rEJHu7VIpmR3W0aJUniU=" ∧
    flipBit (SignedValue (ascii "seed") (ascii "key") (ascii "v0") (Time.ofUnix 1000)) 52 1
      = ascii "djA=|1000|BTLqgjK5m4Ux12lrja8u5k8rEJHu7VIpmR3W0aJUniW=" ∧
    Validate ⟨ascii "key",
        flipBit (SignedValue (ascii "seed") (ascii "key") (ascii "v0") (Time.ofUnix 1000)) 52 1⟩
        (ascii "seed") Hour (Time.ofUnix 1000)
      = (ascii "v0", Time.ofUnix 1000, true) := by
  have h : SignedValue (ascii "seed") (ascii "key") (ascii "v0") (Time.ofUnix 1000)
      = ascii "djA=|1000|BTLqgjK5m4Ux12lrja8u5k8rEJHu7VIpmR3W0aJUniU=" := by decide
  rw [h]
  refine ⟨rfl, by decide, by decide⟩

/-- C3 (amended): let `E`, `T`, `S` be the three fields of the cookie
`SignedValue(seed, key, v, t)` and let one of them have a single bit flipped,
giving `E'`, `T'`, `S'`. If `Validate` accepts the cookie `E'|T'|S'` under the
name `key` and the same seed, then `S'` still decodes to the same digest as `S`
and the HMAC-SHA256 of `key ++ E' ++ T'` equals that of `key ++ E ++ T`: a flip
is rejected unless it only touches bits of the signature that decoding ignores
or the tampered message has the same HMAC-SHA256 as the original. -/
theorem Validate_tampered (seed key v : Bytes) (t : Time) (e : Duration) (now : Time)
    (E T S E' T' S' : Bytes)
    (hfields : Split (SignedValue seed key v t) pipe = [E, T, S])
    (htamper : ∃ j k,
      (E' = flipBit E j k ∧ T' = T ∧ S' = S) ∨
      (E' = E ∧ T' = flipBit T j k ∧ S' = S) ∨
      (E' = E ∧ T' = T ∧ S' = flipBit S j k))
    (hok : (Validate ⟨key, E' ++ ascii "|" ++ T' ++ ascii "|" ++ S'⟩ seed e now).2.2 = true) :
    URLEncoding.DecodeString S' = URLEncoding.DecodeString S ∧
    hmac.Sum sha256New seed (key ++ E' ++ T') = hmac.Sum sha256New seed (key ++ E ++ T) := by
  have hp : ascii "|" = [pipe] := by decide
  rw [Split_SignedValue] at hfields
  simp only [List.cons.injEq, and_true] at hfields
  obtain ⟨hE, hT, hS⟩ := hfields
  have hdecS : URLEncoding.DecodeString S = some (hmac.Sum sha256New seed (key ++ E ++ T)) := by
    rw [← hS, ← hE, ← hT, cookieSignature, DecodeString_EncodeToString, flatten_three]
  have hval : E' ++ ascii "|" ++ T' ++ ascii "|" ++ S' = E' ++ pipe :: (T' ++ pipe :: S') := by
    simp [hp]
  rw [hval] at hok
  obtain ⟨v', ts', sig', n, raw, hsp, hsig, -⟩ := Accepts_of_Validate_ok hok
  simp only [] at hsp hsig
  have hcount : (E' ++ pipe :: (T' ++ pipe :: S')).count pipe = 2 := by
    have := Split_length (E' ++ pipe :: (T' ++ pipe :: S')) pipe
    rw [hsp] at this
    simp only [List.length_cons, List.length_nil] at this
    omega
  obtain ⟨h1, h2, h3⟩ := not_mem_of_count_append_three _ _ _ hcount
  rw [(Split_eq_three _ _ _ _ _).2 ⟨h1, h2, h3, rfl⟩] at hsp
  simp only [List.cons.injEq, and_true] at hsp
  obtain ⟨rfl, rfl, rfl⟩ := hsp
  obtain ⟨j, k, ⟨hE', rfl, rfl⟩ | ⟨rfl, hT', rfl⟩ | ⟨rfl, rfl, hS'⟩⟩ := htamper
  · refine ⟨rfl, ?_⟩
    rcases hsig with h | h
    · rw [hdecS] at h
      exact (Option.some.inj h).symm
    · rw [hdecS] at h
      have := congrArg List.length (Option.some.inj h)
      rw [hmac_sha256_length, hmac_sha1_length] at this
      omega
  · refine ⟨rfl, ?_⟩
    rcases hsig with h | h
    · rw [hdecS] at h
      exact (Option.some.inj h).symm
    · rw [hdecS] at h
      have := congrArg List.length (Option.some.inj h)
      rw [hmac_sha256_length, hmac_sha1_length] at this
      omega
  · refine ⟨?_, rfl⟩
    rcases hsig with h | h
    · rw [h, hdecS]
    · exfalso
      rw [hS', ← hS, cookieSignature] at h
      exact DecodeString_flipBit_length _ (hmac_sha256_length _ _) j k _ h (hmac_sha1_length _ _)

theorem Validate_tampered_witness :
    Split (SignedValue (ascii "seed") (ascii "key") (ascii "v0") (Time.ofUnix 1000)) pipe
      = [ascii "djA=", ascii "1000", ascii "BTLqgjK5m4Ux12lrja8u5k8rEJHu7VIpmR3W0aJUniU="] ∧
    (∃ j k,
      (ascii "djA=" = flipBit (ascii "djA=") j k ∧ ascii "1000" = ascii "1000" ∧
        ascii "BTLqgjK5m4Ux12lrja8u5k8rEJHu7VIpmR3W0aJUniW="
          = ascii "BTLqgjK5m4Ux12lrja8u5k8rEJHu7VIpmR3W0aJUniU=") ∨
      (ascii "djA=" = ascii "djA=" ∧ ascii "1000" = flipBit (ascii "1000") j k ∧
        ascii "BTLqgjK5m4Ux12lrja8u5k8rEJHu7VIpmR3W0aJUniW="
          = ascii "BTLqgjK5m4Ux12lrja8u5k8rEJHu7VIpmR3W0aJUniU=") ∨
      (ascii "djA=" = ascii "djA=" ∧ ascii "1000" = ascii "1000" ∧
        ascii "BTLqgjK5m4Ux12lrja8u5k8rEJHu7VIpmR3W0aJUniW="
          = flipBit (ascii "BTLqgjK5m4Ux12lrja8u5k8rEJHu7VIpmR3W0aJUniU=") j k)) ∧
    (Validate ⟨ascii "key", ascii "djA=" ++ ascii "|" ++ ascii "1000" ++ ascii "|" ++
        ascii "BTLqgjK5m4Ux12lrja8u5k8rEJHu7VIpmR3W0aJUniW="⟩ (ascii "seed") Hour
      (Time.ofUnix 1000)).2.2 = true ∧
    (URLEncoding.DecodeString (ascii "BTLqgjK5m4Ux12lrja8u5k8rEJHu7VIpmR3W0aJUniW=")
      = URLEncoding.DecodeString (ascii "BTLqgjK5m4Ux12lrja8u5k8rEJHu7VIpmR3W0aJUniU=") ∧
    hmac.Sum sha256New (ascii "seed") (ascii "key" ++ ascii "djA=" ++ ascii "1000")
      = hmac.Sum sha256New (ascii "seed") (ascii "key" ++ ascii "djA=" ++ ascii "1000")) :=
  ⟨by decide, ⟨42, 1, Or.inr (Or.inr ⟨rfl, rfl, by decide⟩)⟩, by decide,
    Validate_tampered (ascii "seed") (ascii "key") (ascii "v0") (Time.ofUnix 1000) Hour
      (Time.ofUnix 1000) (ascii "djA=") (ascii "1000")
      (ascii "BTLqgjK5m4Ux12lrja8u5k8rEJHu7VIpmR3W0aJUniU=") (ascii "djA=") (ascii "1000")
      (ascii "BTLqgjK5m4Ux12lrja8u5k8rEJHu7VIpmR3W0aJUniW=") (by decide)
      ⟨42, 1, Or.inr (Or.inr ⟨rfl, rfl, by decide⟩)⟩ (by decide)⟩

/-- C4: for a cookie signed at a whole-second time `t`, an expiration `e > 0`
and a clock reading `now` not before `t`, `Validate` returns `ok = true` if and
only if `now - t < e`; with `e` one hour the cookie validates at
`t + 59m59s` and is rejected at `t + 1h00m01s` and at exactly `t + 1h`. -/
theorem Validate_expiration_boundary (seed key v : Bytes) (t : Time)
    (hrep : t.representable) (hsec : t.ns % 1000000000 = 0) :
    (∀ (e : Duration) (now : Time), 0 < e → t.ns ≤ now.ns →
      ((Validate ⟨key, SignedValue seed key v t⟩ seed e now).2.2 = true ↔ now.ns - t.ns < e)) ∧
    (Validate ⟨key, SignedValue seed key v t⟩ seed Hour
      (t.Add (59 * Minute + 59 * Second))).2.2 = true ∧
    (Validate ⟨key, SignedValue seed key v t⟩ seed Hour
      (t.Add (Hour + Second))).2.2 = false ∧
    (Validate ⟨key, SignedValue seed key v t⟩ seed Hour (t.Add Hour)).2.2 = false := by
  have h2 : t.Unix * 1000000000 = t.ns := by
    simp only [Time.Unix]; omega
  have gen : ∀ (e : Int) (now : Time), 0 < e → t.ns ≤ now.ns →
      ((Validate ⟨key, SignedValue seed key v t⟩ seed e now).2.2 = true ↔ now.ns - t.ns < e) := by
    intro e now he hnow
    rw [Validate_SignedValue_of_ne _ _ _ _ hrep (ne_minInt64_of_pos he), h2]
    by_cases hw : now.ns - e < t.ns ∧ t.ns < now.ns + 300000000000
    · rw [if_pos hw]
      simp only [true_iff]
      omega
    · rw [if_neg hw]
      simp only [Bool.false_eq_true, false_iff]
      omega
  have hH : (0 : Int) < Hour := by decide
  refine ⟨fun e now he hnow => gen e now he hnow, ?_, ?_, ?_⟩
  · rw [gen _ _ hH (by simp only [Time.Add, Minute, Second]; omega)]
    simp only [Time.Add, Hour, Minute, Second]
    omega
  · rw [Bool.eq_false_iff, Ne, gen _ _ hH (by simp only [Time.Add, Hour, Minute, Second]; omega)]
    simp only [Time.Add, Hour, Minute, Second]
    omega
  · rw [Bool.eq_false_iff, Ne, gen _ _ hH (by simp only [Time.Add, Hour, Minute, Second]; omega)]
    simp only [Time.Add, Hour, Minute, Second]
    omega

theorem Validate_expiration_boundary_witness :
    (Time.ofUnix 1000).representable ∧ (Time.ofUnix 1000).ns % 1000000000 = 0 ∧
    ((∀ (e : Duration) (now : Time), 0 < e → (Time.ofUnix 1000).ns ≤ now.ns →
      ((Validate ⟨ascii "key", SignedValue (ascii "seed") (ascii "key") (ascii "v0")
          (Time.ofUnix 1000)⟩ (ascii "seed") e now).2.2 = true ↔
        now.ns - (Time.ofUnix 1000).ns < e)) ∧
    (Validate ⟨ascii "key", SignedValue (ascii "seed") (ascii "key") (ascii "v0")
        (Time.ofUnix 1000)⟩ (ascii "seed") Hour
      ((Time.ofUnix 1000).Add (59 * Minute + 59 * Second))).2.2 = true ∧
    (Validate ⟨ascii "key", SignedValue (ascii "seed") (ascii "key") (ascii "v0")
        (Time.ofUnix 1000)⟩ (ascii "seed") Hour
      ((Time.ofUnix 1000).Add (Hour + Second))).2.2 = false ∧
    (Validate ⟨ascii "key", SignedValue (ascii "seed") (ascii "key") (ascii "v0")
        (Time.ofUnix 1000)⟩ (ascii "seed") Hour ((Time.ofUnix 1000).Add Hour)).2.2 = false) :=
  ⟨by decide, by decide,
    Validate_expiration_boundary (ascii "seed") (ascii "key") (ascii "v0") (Time.ofUnix 1000)
      (by decide) (by decide)⟩

/-- C5, as stated, fails in two places, both because the cookie carries whole
seconds while the clock has nanoseconds. With the clock at 0.5 s, a cookie
signed exactly five minutes later (at 300.5 s) carries the second 300, which is
before `now + 5 minutes`, so it validates although the offset is not below five
minutes. With the clock at 0.5 s and an expiration of 0.5 s, a cookie signed at
that instant (offset 0) carries the second 0, which is not after
`now - expiration`, so it is rejected although the offset is below five
minutes. -/
theorem Validate_skew_five_minutes_accepted :
    (0 : Duration) < Hour ∧ ¬ (300 * Second < 5 * Minute) ∧
    Validate ⟨ascii "key", SignedValue (ascii "seed") (ascii "key") (ascii "v0")
        ((Time.mk 500000000).Add (300 * Second))⟩ (ascii "seed") Hour (Time.mk 500000000)
      = (ascii "v0", Time.ofUnix 300, true) ∧
    (0 : Duration) < 500000000 ∧ (0 : Duration) < 5 * Minute ∧
    Validate ⟨ascii "key", SignedValue (ascii "seed") (ascii "key") (ascii "v0")
        ((Time.mk 500000000).Add 0)⟩ (ascii "seed") 500000000 (Time.mk 500000000)
      = ([], Time.ofUnix 0, false) := by
  refine ⟨by decide, by decide, ?_, by decide, by decide, ?_⟩
  · rw [Validate_SignedValue _ _ _ _ (by decide)]
    decide
  · rw [Validate_SignedValue _ _ _ _ (by decide)]
    decide

theorem skew_arith (e d f : Int) (he : 0 < e) (hd : 0 ≤ d) (hdsec : d % 1000000000 = 0)
    (hf : 0 ≤ f ∧ f < 1000000000) (h1 : ¬ (d = 300000000000 ∧ f ≠ 0))
    (h2 : ¬ (d = 0 ∧ e ≤ f)) :
    (f < d + e ∧ d < 300000000000 + f) ↔ d < 300000000000 := by
  omega

/-- C5 (amended): for every seed, key, payload, expiration above zero, clock
reading `now` and offset `d ≥ 0` in whole seconds, `Validate` of the cookie
signed at `now + d` returns `ok = true` if and only if `d < 5 minutes`, except
in two cases: at `d = 5 minutes` exactly the cookie is accepted when `now` has
a sub-second part, and at `d = 0` it is rejected when the expiration is not
larger than the sub-second part of `now`. In every case `ok = true` if and only
if the sub-second part of `now` is below `d + expiration` and `d` is below
five minutes plus that sub-second part. For every clock reading a timestamp
four minutes in the future validates and one six minutes in the future does
not. -/
theorem Validate_clock_skew (seed key v : Bytes) (e : Duration) (now : Time) (d : Duration)
    (he : 0 < e) (hd : 0 ≤ d) (hdsec : d % Second = 0) (hrep : (now.Add d).representable) :
    ((Validate ⟨key, SignedValue seed key v (now.Add d)⟩ seed e now).2.2 = true ↔
      now.ns % 1000000000 < d + e ∧ d < 5 * Minute + now.ns % 1000000000) ∧
    (¬ (d = 5 * Minute ∧ now.ns % 1000000000 ≠ 0) →
      ¬ (d = 0 ∧ e ≤ now.ns % 1000000000) →
      ((Validate ⟨key, SignedValue seed key v (now.Add d)⟩ seed e now).2.2 = true ↔
        d < 5 * Minute)) ∧
    ((now.Add (4 * Minute)).representable →
      (Validate ⟨key, SignedValue seed key v (now.Add (4 * Minute))⟩ seed e now).2.2 = true) ∧
    ((now.Add (6 * Minute)).representable →
      (Validate ⟨key, SignedValue seed key v (now.Add (6 * Minute))⟩ seed e now).2.2 = false) := by
  have he' : (0 : Int) < e := he
  have hmin : (5 : Int) * Minute = 300000000000 := by decide
  have gen : ∀ d : Int, 0 ≤ d → d % 1000000000 = 0 → (now.Add d).representable →
      ((Validate ⟨key, SignedValue seed key v (now.Add d)⟩ seed e now).2.2 = true ↔
        now.ns % 1000000000 < d + e ∧ d < 300000000000 + now.ns % 1000000000) := by
    intro d hd hdsec hrep
    rw [Validate_SignedValue_of_ne _ _ _ _ hrep (ne_minInt64_of_pos he')]
    have h2 : (now.Add d).Unix * 1000000000 = now.ns - now.ns % 1000000000 + d := by
      simp only [Time.Unix, Time.Add]; omega
    rw [h2]
    by_cases hw : now.ns - e < now.ns - now.ns % 1000000000 + d ∧
        now.ns - now.ns % 1000000000 + d < now.ns + 300000000000
    · rw [if_pos hw]
      simp only [true_iff]
      omega
    · rw [if_neg hw]
      simp only [Bool.false_eq_true, false_iff]
      omega
  have hd' : (0 : Int) ≤ d := hd
  have hdsec' : d % 1000000000 = 0 := hdsec
  have hf : 0 ≤ now.ns % 1000000000 ∧ now.ns % 1000000000 < 1000000000 := by omega
  refine ⟨?_, ?_, ?_, ?_⟩
  · rw [hmin]
    exact gen d hd' hdsec' hrep
  · intro h1 h2
    rw [gen d hd' hdsec' hrep, hmin]
    exact skew_arith e d (now.ns % 1000000000) he hd hdsec hf (by rw [← hmin]; exact h1) h2
  · intro hrep4
    rw [gen _ (by decide) (by decide) hrep4]
    have : (4 : Int) * Minute = 240000000000 := by decide
    rw [this]
    omega
  · intro hrep6
    rw [Bool.eq_false_iff, Ne, gen _ (by decide) (by decide) hrep6]
    have : (6 : Int) * Minute = 360000000000 := by decide
    rw [this]
    omega

theorem Validate_clock_skew_witness :
    (0 : Duration) < Hour ∧ (0 : Duration) ≤ 5 * Minute ∧ (5 * Minute) % Second = 0 ∧
    ((Time.mk 1000500000000).Add (5 * Minute)).representable ∧
    (((Validate ⟨ascii "key", SignedValue (ascii "seed") (ascii "key") (ascii "v0")
        ((Time.mk 1000500000000).Add (5 * Minute))⟩ (ascii "seed") Hour
          (Time.mk 1000500000000)).2.2 = true ↔
      (Time.mk 1000500000000).ns % 1000000000 < 5 * Minute + Hour ∧
        5 * Minute < 5 * Minute + (Time.mk 1000500000000).ns % 1000000000) ∧
    (¬ (5 * Minute = 5 * Minute ∧ (Time.mk 1000500000000).ns % 1000000000 ≠ 0) →
      ¬ (5 * Minute = 0 ∧ Hour ≤ (Time.mk 1000500000000).ns % 1000000000) →
      ((Validate ⟨ascii "key", SignedValue (ascii "seed") (ascii "key") (ascii "v0")
          ((Time.mk 1000500000000).Add (5 * Minute))⟩ (ascii "seed") Hour
            (Time.mk 1000500000000)).2.2 = true ↔
        5 * Minute < 5 * Minute)) ∧
    (((Time.mk 1000500000000).Add (4 * Minute)).representable →
      (Validate ⟨ascii "key", SignedValue (ascii "seed") (ascii "key") (ascii "v0")
        ((Time.mk 1000500000000).Add (4 * Minute))⟩ (ascii "seed") Hour
          (Time.mk 1000500000000)).2.2 = true) ∧
    (((Time.mk 1000500000000).Add (6 * Minute)).representable →
      (Validate ⟨ascii "key", SignedValue (ascii "seed") (ascii "key") (ascii "v0")
        ((Time.mk 1000500000000).Add (6 * Minute))⟩ (ascii "seed") Hour
          (Time.mk 1000500000000)).2.2 = false)) :=
  ⟨by decide, by decide, by decide, by decide,
    Validate_clock_skew (ascii "seed") (ascii "key") (ascii "v0") Hour (Time.mk 1000500000000)
      (5 * Minute) (by decide) (by decide) (by decide) (by decide)⟩

/-- C6: the cookie `enc(v)|decimal(t)|enc(HMAC-SHA1(seed, name ++ enc(v) ++
decimal(t)))`, the SHA-1 variant of `SignedValue`, for a time of `t` whole
seconds, is accepted by `Validate` with that name and seed when the clock reads
`t`, for every expiration of at least one second, and the result is
`(v, t, true)`. -/
theorem Validate_legacy_sha1 (seed name v : Bytes) (t : Int) (e : Duration)
    (hlo : minInt64 ≤ t) (hhi : t ≤ maxInt64) (he : Second ≤ e) :
    Validate
        ⟨name, URLEncoding.EncodeToString v ++ ascii "|" ++ formatInt t ++ ascii "|" ++
          URLEncoding.EncodeToString
            (hmac.Sum sha1New seed (name ++ URLEncoding.EncodeToString v ++ formatInt t))⟩
        seed e (Time.ofUnix t)
      = (v, Time.ofUnix t, true) := by
  have he' : (1000000000 : Int) ≤ e := he
  have hsplit : Split (URLEncoding.EncodeToString v ++ ascii "|" ++ formatInt t ++ ascii "|" ++
      URLEncoding.EncodeToString
        (hmac.Sum sha1New seed (name ++ URLEncoding.EncodeToString v ++ formatInt t))) pipe
      = [URLEncoding.EncodeToString v, formatInt t,
         cookieSignature sha1New seed [name, URLEncoding.EncodeToString v, formatInt t]] := by
    have hp : ascii "|" = [pipe] := by decide
    rw [hp, Split_eq_three]
    refine ⟨pipe_not_mem_EncodeToString _, pipe_not_mem_formatInt _,
      pipe_not_mem_cookieSignature _ _ _, ?_⟩
    simp [cookieSignature, flatten_three]
  rw [Validate_of_Split hsplit]
  rw [if_pos (checkSignature_cookieSignature _ _ _ (Or.inr rfl)), Atoi_formatInt _ hlo hhi]
  simp only [DecodeString_EncodeToString, Time.ofUnix,
    mulInt64_neg_one (ne_minInt64_of_pos (by omega : (0 : Int) < e))]
  rw [if_pos (by omega)]

theorem Validate_legacy_sha1_witness :
    minInt64 ≤ 1000 ∧ (1000 : Int) ≤ maxInt64 ∧ Second ≤ Hour ∧
    Validate
        ⟨ascii "key", URLEncoding.EncodeToString (ascii "v0") ++ ascii "|" ++ formatInt 1000
          ++ ascii "|" ++ URLEncoding.EncodeToString
            (hmac.Sum sha1New (ascii "seed")
              (ascii "key" ++ URLEncoding.EncodeToString (ascii "v0") ++ formatInt 1000))⟩
        (ascii "seed") Hour (Time.ofUnix 1000)
      = (ascii "v0", Time.ofUnix 1000, true) :=
  ⟨by decide, by decide, by decide,
    Validate_legacy_sha1 (ascii "seed") (ascii "key") (ascii "v0") 1000 Hour
      (by decide) (by decide) (by decide)⟩

/-- C7: a cookie whose value does not contain exactly two `|` is rejected with
the nil value and the zero time, whatever the name, seed, expiration and clock
reading. -/
theorem Validate_wrong_field_count (cookie : Cookie) (seed : Bytes) (e : Duration) (now : Time)
    (h : cookie.Value.count pipe ≠ 2) :
    Validate cookie seed e now = ([], Time.zero, false) := by
  have hlen : (Split cookie.Value pipe).length ≠ 3 := by
    rw [Split_length]; omega
  unfold Validate ValidateClock
  split
  · rename_i heq
    rw [heq] at hlen
    simp at hlen
  · rfl

theorem Validate_wrong_field_count_witness :
    (Cookie.mk (ascii "key") (ascii "a|b|c|d")).Value.count pipe ≠ 2 ∧
    Validate ⟨ascii "key", ascii "a|b|c|d"⟩ (ascii "seed") Hour (Time.ofUnix 1000)
      = ([], Time.zero, false) :=
  ⟨by decide,
    Validate_wrong_field_count ⟨ascii "key", ascii "a|b|c|d"⟩ (ascii "seed") Hour
      (Time.ofUnix 1000) (by decide)⟩

/-- C8 fails on the code: a correctly signed cookie that has expired is
rejected with the nil value but with the timestamp of the cookie, not the zero
time. `Validate` assigns the named result `t` before it checks the window, and
the `return` that follows hands it back; the failure paths before that
assignment return the zero time. The cookie is the one signed for seed `seed`,
key `key`, payload `v0` at second 1000, checked with an expiration of one hour
when the clock reads second 10000. -/
theorem Validate_expired_returns_timestamp :
    Validate ⟨ascii "key", SignedValue (ascii "seed") (ascii "key") (ascii "v0")
        (Time.ofUnix 1000)⟩ (ascii "seed") Hour (Time.ofUnix 10000)
      = ([], Time.ofUnix 1000, false) ∧ Time.ofUnix 1000 ≠ Time.zero := by
  refine ⟨?_, by decide⟩
  rw [Validate_SignedValue _ _ _ _ (by decide)]
  decide

theorem parseDigits_all_isDigit (s : Bytes) (acc n : Nat) (h : parseDigits s acc = some n) :
    s.all isDigit = true := by
  induction s generalizing acc with
  | nil => rfl
  | cons c cs ih =>
    simp only [parseDigits] at h
    simp only [List.all_cons, Bool.and_eq_true]
    by_cases hd : 48 ≤ c.val ∧ c.val ≤ 57
    · simp only [digitVal, if_pos hd] at h
      exact ⟨by simp [isDigit, hd], ih _ h⟩
    · simp [digitVal, if_neg hd] at h

/-- `Atoi` fails on every string that is not a decimal integer. -/
theorem Atoi_eq_none_of_not_decimal (s : Bytes) (h : isDecimalInteger s = false) :
    Atoi s = none := by
  cases s with
  | nil => rfl
  | cons c cs =>
    simp only [isDecimalInteger] at h
    simp only [Atoi]
    by_cases h45 : c = 45
    · rw [if_pos h45]
      rw [if_pos (Or.inl h45)] at h
      cases cs with
      | nil => rfl
      | cons d ds =>
        simp only []
        cases hp : parseDigits (d :: ds) 0 with
        | none => rfl
        | some n =>
          have := parseDigits_all_isDigit _ _ _ hp
          simp [this] at h
    · rw [if_neg h45]
      by_cases h43 : c = 43
      · rw [if_pos h43]
        rw [if_pos (Or.inr h43)] at h
        cases cs with
        | nil => rfl
        | cons d ds =>
          simp only []
          cases hp : parseDigits (d :: ds) 0 with
          | none => rfl
          | some n =>
            have := parseDigits_all_isDigit _ _ _ hp
            simp [this] at h
      · rw [if_neg h43]
        rw [if_neg (by simp [h45, h43])] at h
        cases hp : parseDigits (c :: cs) 0 with
        | none => rfl
        | some n =>
          have := parseDigits_all_isDigit _ _ _ hp
          rw [this] at h
          exact absurd h (by decide)

theorem checkSignature_of_decode_none (sig key : Bytes) (args : List Bytes)
    (h : URLEncoding.DecodeString sig = none) : checkSignature sig key args = false := by
  rw [Bool.eq_false_iff, Ne, checkSignature_eq_true_iff, h]
  simp

/-- C9: a three-field cookie value `v|ts|sig` in which `sig` is not valid
base64, or `ts` is not a decimal integer, or `v` is not valid base64, is
rejected, whatever the name, seed, expiration and clock reading. -/
theorem Validate_malformed_field (cookie : Cookie) (v ts sig seed : Bytes) (e : Duration)
    (now : Time) (hsplit : Split cookie.Value pipe = [v, ts, sig])
    (hbad : URLEncoding.DecodeString sig = none ∨ isDecimalInteger ts = false ∨
      URLEncoding.DecodeString v = none) :
    (Validate cookie seed e now).2.2 = false := by
  rw [Validate_of_Split hsplit]
  by_cases hcs : checkSignature sig seed [cookie.Name, v, ts] = true
  · rw [if_pos hcs]
    rcases hbad with hs | ht | hv
    · rw [checkSignature_of_decode_none _ _ _ hs] at hcs
      exact absurd hcs (by decide)
    · rw [Atoi_eq_none_of_not_decimal _ ht]
    · cases Atoi ts with
      | none => rfl
      | some n =>
        simp only [hv]
        split <;> rfl
  · rw [if_neg hcs]

theorem Validate_malformed_field_witness :
    Split (Cookie.mk (ascii "key") (ascii "djA=|12x4|AAAA")).Value pipe
      = [ascii "djA=", ascii "12x4", ascii "AAAA"] ∧
    (URLEncoding.DecodeString (ascii "AAAA") = none ∨ isDecimalInteger (ascii "12x4") = false ∨
      URLEncoding.DecodeString (ascii "djA=") = none) ∧
    (Validate ⟨ascii "key", ascii "djA=|12x4|AAAA"⟩ (ascii "seed") Hour
      (Time.ofUnix 1000)).2.2 = false :=
  ⟨by decide, Or.inr (Or.inl (by decide)),
    Validate_malformed_field ⟨ascii "key", ascii "djA=|12x4|AAAA"⟩ (ascii "djA=")
      (ascii "12x4") (ascii "AAAA") (ascii "seed") Hour (Time.ofUnix 1000) (by decide)
      (Or.inr (Or.inl (by decide)))⟩

/-- C10: `SignedValue(seed, key, value, now)` is `E|T|S` where `E` is the
padded base64 encoding of the value, `T` the decimal rendering of the Unix
seconds of `now` and `S` the padded base64 encoding of the HMAC-SHA256 keyed by
the seed of `key ++ E ++ T`; none of `E`, `T`, `S` contains `|`, so the string
splits on `|` into exactly these three parts. -/
theorem SignedValue_wire_format (seed key value : Bytes) (now : Time) :
    SignedValue seed key value now
      = URLEncoding.EncodeToString value ++ ascii "|" ++ formatInt now.Unix ++ ascii "|" ++
          URLEncoding.EncodeToString (hmac.Sum sha256New seed
            (key ++ URLEncoding.EncodeToString value ++ formatInt now.Unix)) ∧
    Split (SignedValue seed key value now) pipe
      = [URLEncoding.EncodeToString value, formatInt now.Unix,
          URLEncoding.EncodeToString (hmac.Sum sha256New seed
            (key ++ URLEncoding.EncodeToString value ++ formatInt now.Unix))] ∧
    pipe ∉ URLEncoding.EncodeToString value ∧ pipe ∉ formatInt now.Unix ∧
    pipe ∉ URLEncoding.EncodeToString (hmac.Sum sha256New seed
      (key ++ URLEncoding.EncodeToString value ++ formatInt now.Unix)) := by
  have hp : ascii "|" = [pipe] := by decide
  refine ⟨?_, ?_, pipe_not_mem_EncodeToString _, pipe_not_mem_formatInt _,
    pipe_not_mem_EncodeToString _⟩
  · simp [SignedValue, cookieSignature, flatten_three, hp]
  · rw [Split_SignedValue]
    simp [cookieSignature, flatten_three]

/-! ## `base64.RawURLEncoding` -/

theorem RawURLEncoding_decodeMap (c : Byte) :
    RawURLEncoding.decodeMap c = URLEncoding.decodeMap c := rfl

theorem RawURLEncoding_encodeChar (v : Nat) :
    RawURLEncoding.encodeChar v = URLEncoding.encodeChar v := rfl

theorem RawURLEncoding_padding (k : Nat) : RawURLEncoding.padding k = [] := rfl

theorem RawURLEncoding_padChar : RawURLEncoding.padChar = none := rfl

theorem URLEncoding_encodeChar_ne_pad {v : Nat} (h : v < 64) :
    URLEncoding.encodeChar v ≠ 61 :=
  (URLEncoding_alphabet ⟨v, h⟩).2.2.2

/-- Every character of an unpadded encoding is a character of the alphabet. -/
theorem RawURLEncoding_forall_encoded (P : Byte → Prop)
    (halpha : ∀ v, v < 64 → P (URLEncoding.encodeChar v)) (src : Bytes) :
    ∀ c ∈ RawURLEncoding.EncodeToString src, P c := by
  induction src using Encoding.EncodeToString.induct RawURLEncoding with
  | case1 => simp [Encoding.EncodeToString]
  | case2 a =>
    intro c hc
    simp only [Encoding.EncodeToString, RawURLEncoding_padding, RawURLEncoding_encodeChar,
      List.mem_cons, List.mem_nil_iff, or_false] at hc
    rcases hc with rfl | rfl
    · exact halpha _ (Nat.mod_lt _ (by decide))
    · exact halpha _ (Nat.mod_lt _ (by decide))
  | case3 a b =>
    intro c hc
    simp only [Encoding.EncodeToString, RawURLEncoding_padding, RawURLEncoding_encodeChar,
      List.mem_cons, List.mem_nil_iff, or_false] at hc
    rcases hc with rfl | rfl | rfl
    · exact halpha _ (Nat.mod_lt _ (by decide))
    · exact halpha _ (Nat.mod_lt _ (by decide))
    · exact halpha _ (Nat.mod_lt _ (by decide))
  | case4 a b c rest ih =>
    intro x hx
    simp only [Encoding.EncodeToString, RawURLEncoding_encodeChar, List.mem_cons] at hx
    rcases hx with rfl | rfl | rfl | rfl | hx
    · exact halpha _ (Nat.mod_lt _ (by decide))
    · exact halpha _ (Nat.mod_lt _ (by decide))
    · exact halpha _ (Nat.mod_lt _ (by decide))
    · exact halpha _ (Nat.mod_lt _ (by decide))
    · exact ih x hx

theorem filter_newline_RawEncodeToString (src : Bytes) :
    (RawURLEncoding.EncodeToString src).filter (fun c => !Encoding.isNewline c)
      = RawURLEncoding.EncodeToString src := by
  rw [List.filter_eq_self]
  intro c hc
  have := RawURLEncoding_forall_encoded (fun c => Encoding.isNewline c = false)
    (fun _ hv => URLEncoding_encodeChar_not_newline hv) src c hc
  simp [this]

theorem pad_not_mem_RawEncodeToString (src : Bytes) :
    ∀ c ∈ RawURLEncoding.EncodeToString src, c ≠ 61 :=
  RawURLEncoding_forall_encoded (fun c => c ≠ 61) (fun _ hv => URLEncoding_encodeChar_ne_pad hv) src

/-- Unpadded decoding undoes unpadded encoding, quantum by quantum. -/
theorem decodeQuanta_RawEncodeToString (src : Bytes) :
    RawURLEncoding.decodeQuanta (RawURLEncoding.EncodeToString src) = some src := by
  induction src using Encoding.EncodeToString.induct RawURLEncoding with
  | case1 => simp [Encoding.EncodeToString, Encoding.decodeQuanta]
  | case2 a =>
    have ha := a.isLt
    simp only [Encoding.EncodeToString, RawURLEncoding_padding, Encoding.decodeQuanta,
      RawURLEncoding_encodeChar, RawURLEncoding_decodeMap, RawURLEncoding_padChar,
      URLEncoding_decodeMap_encodeChar (Nat.mod_lt _ (by decide : 0 < 64)),
      Option.some.injEq, List.cons.injEq, and_true]
    apply byteAt_eq
    norm_num
    omega
  | case3 a b =>
    have ha := a.isLt
    have hb := b.isLt
    simp only [Encoding.EncodeToString, RawURLEncoding_padding, Encoding.decodeQuanta,
      RawURLEncoding_encodeChar, RawURLEncoding_decodeMap, RawURLEncoding_padChar,
      URLEncoding_decodeMap_encodeChar (Nat.mod_lt _ (by decide : 0 < 64)),
      Option.some.injEq, List.cons.injEq, and_true]
    refine ⟨byteAt_eq ?_, byteAt_eq ?_⟩
    · norm_num; omega
    · norm_num; omega
  | case4 a b c rest ih =>
    have ha := a.isLt
    have hb := b.isLt
    have hc := c.isLt
    simp only [Encoding.EncodeToString, Encoding.decodeQuanta,
      RawURLEncoding_encodeChar, RawURLEncoding_decodeMap,
      URLEncoding_decodeMap_encodeChar (Nat.mod_lt _ (by decide : 0 < 64)), ih,
      Option.some.injEq, List.cons.injEq, and_true]
    refine ⟨byteAt_eq ?_, byteAt_eq ?_, byteAt_eq ?_⟩
    · norm_num; omega
    · norm_num; omega
    · norm_num; omega

/-- `RawURLEncoding.DecodeString` undoes `RawURLEncoding.EncodeToString`. -/
theorem RawDecodeString_EncodeToString (src : Bytes) :
    RawURLEncoding.DecodeString (RawURLEncoding.EncodeToString src) = some src := by
  rw [Encoding.DecodeString, filter_newline_RawEncodeToString, decodeQuanta_RawEncodeToString]

/-- The padded encoding is the unpadded encoding followed by its padding. -/
theorem EncodeToString_eq_raw_append (src : Bytes) :
    URLEncoding.EncodeToString src
      = RawURLEncoding.EncodeToString src ++ List.replicate ((3 - src.length % 3) % 3) 61 := by
  induction src using Encoding.EncodeToString.induct URLEncoding with
  | case1 => rfl
  | case2 a => rfl
  | case3 a b => rfl
  | case4 a b c rest ih =>
    have hlen : (3 - (a :: b :: c :: rest).length % 3) % 3 = (3 - rest.length % 3) % 3 := by
      simp only [List.length_cons]
      omega
    rw [hlen]
    simp only [Encoding.EncodeToString, RawURLEncoding_encodeChar, ih, List.cons_append]

theorem decodeQuanta_raw_length_aux (n : Nat) :
    ∀ s b : Bytes, s.length < n → RawURLEncoding.decodeQuanta s = some b →
      b.length = 3 * s.length / 4 := by
  induction n with
  | zero => intro s b hn; omega
  | succ n ih =>
    intro s b hn h
    match s, hn, h with
    | [], _, h =>
      simp only [Encoding.decodeQuanta, Option.some.injEq] at h
      subst h; rfl
    | [_], _, h => exact absurd h (by simp [Encoding.decodeQuanta])
    | [a, c], _, h =>
      simp only [Encoding.decodeQuanta, RawURLEncoding_padChar] at h
      cases hx : RawURLEncoding.decodeMap a with
      | none => simp [hx] at h
      | some x =>
        cases hy : RawURLEncoding.decodeMap c with
        | none => simp [hx, hy] at h
        | some y =>
          simp only [hx, hy, Option.some.injEq] at h
          subst h; simp
    | [a, c, d], _, h =>
      simp only [Encoding.decodeQuanta, RawURLEncoding_padChar] at h
      cases hx : RawURLEncoding.decodeMap a with
      | none => simp [hx] at h
      | some x =>
        cases hy : RawURLEncoding.decodeMap c with
        | none => simp [hx, hy] at h
        | some y =>
          cases hz : RawURLEncoding.decodeMap d with
          | none => simp [hx, hy, hz] at h
          | some z =>
            simp only [hx, hy, hz, Option.some.injEq] at h
            subst h; simp
    | a :: c :: d :: f :: rest, hn, h =>
      simp only [Encoding.decodeQuanta, RawURLEncoding_padChar] at h
      cases hx : RawURLEncoding.decodeMap a with
      | none => simp [hx] at h
      | some x =>
        cases hy : RawURLEncoding.decodeMap c with
        | none => simp [hx, hy] at h
        | some y =>
          simp only [hx, hy] at h
          cases hz : RawURLEncoding.decodeMap d with
          | none => simp [hz] at h
          | some z =>
            simp only [hz] at h
            cases hw : RawURLEncoding.decodeMap f with
            | none => simp [hw] at h
            | some w =>
              simp only [hw] at h
              cases hr : RawURLEncoding.decodeQuanta rest with
              | none => simp [hr] at h
              | some out =>
                simp only [hr, Option.some.injEq] at h
                subst h
                have := ih rest out (by simp only [List.length_cons] at hn; omega) hr
                simp only [List.length_cons, this]
                omega

/-- An unpadded decoding has three quarters of the length of its input,
rounded down. -/
theorem RawDecodeString_length (s b : Bytes) (h : RawURLEncoding.DecodeString s = some b) :
    b.length = 3 * (s.filter (fun c => !Encoding.isNewline c)).length / 4 :=
  decodeQuanta_raw_length_aux _ _ b (Nat.lt_succ_self _) h

theorem RawDecodeString_length_le (s b : Bytes) (h : RawURLEncoding.DecodeString s = some b) :
    4 * b.length ≤ 3 * s.length := by
  have h1 := RawDecodeString_length s b h
  have h2 : (s.filter (fun c => !Encoding.isNewline c)).length ≤ s.length :=
    List.length_filter_le _ _
  omega

/-! ## `strings.TrimRight` -/

theorem TrimRight_append_replicate (s : Bytes) (k : Nat) (c : Byte) :
    TrimRight (s ++ List.replicate k c) c = TrimRight s c := by
  induction k with
  | zero => simp
  | succ k ih =>
    rw [List.replicate_succ', ← List.append_assoc]
    unfold TrimRight at ih ⊢
    rw [List.reverse_append, List.reverse_singleton, List.singleton_append,
      List.dropWhile_cons_of_pos (by simp), ih]

theorem TrimRight_of_getLast (s : Bytes) (c : Byte) (h : s.getLast? ≠ some c) :
    TrimRight s c = s := by
  unfold TrimRight
  cases hr : s.reverse with
  | nil =>
    have : s = [] := List.reverse_eq_nil_iff.mp hr
    subst this; rfl
  | cons x xs =>
    have hs : s = xs.reverse ++ [x] := by
      have := congrArg List.reverse hr
      simpa using this
    have hx : x ≠ c := by
      intro e
      apply h
      rw [hs, e]
      simp
    rw [List.dropWhile_cons_of_neg (by simpa using hx), ← hr, List.reverse_reverse]

theorem TrimRight_of_forall_ne (s : Bytes) (c : Byte) (h : ∀ b ∈ s, b ≠ c) :
    TrimRight s c = s := by
  apply TrimRight_of_getLast
  intro hl
  exact h c (List.mem_of_getLast?_eq_some hl) rfl

theorem TrimRight_length_le (s : Bytes) (c : Byte) : (TrimRight s c).length ≤ s.length := by
  unfold TrimRight
  rw [List.length_reverse]
  have := (List.dropWhile_suffix (fun b => decide (b = c)) (l := s.reverse)).length_le
  simpa using this

/-- Every string is its trimmed form followed by a run of the trimmed
character, and the trimmed form does not end in that character. -/
theorem TrimRight_decomposition (s : Bytes) (c : Byte) :
    ∃ k, s = TrimRight s c ++ List.replicate k c ∧ (TrimRight s c).getLast? ≠ some c := by
  induction s using List.reverseRecOn with
  | nil => exact ⟨0, rfl, by simp [TrimRight]⟩
  | append_singleton xs x ih =>
    by_cases hx : x = c
    · subst hx
      obtain ⟨k, h1, h2⟩ := ih
      have e : TrimRight (xs ++ [x]) x = TrimRight xs x := by
        have := TrimRight_append_replicate xs 1 x
        simpa using this
      rw [e]
      refine ⟨k + 1, ?_, h2⟩
      rw [List.replicate_succ', ← List.append_assoc, ← h1]
    · have hl : (xs ++ [x]).getLast? ≠ some c := by
        simp [hx]
      rw [TrimRight_of_getLast _ _ hl]
      exact ⟨0, by simp, hl⟩

/-- The trimmed form is the only such decomposition. -/
theorem TrimRight_unique (secret s : Bytes) (k : Nat) (c : Byte)
    (h1 : secret = s ++ List.replicate k c) (h2 : s.getLast? ≠ some c) :
    TrimRight secret c = s := by
  rw [h1, TrimRight_append_replicate, TrimRight_of_getLast _ _ h2]

/-! ## `SecretBytes` -/

theorem aes_any (n : Nat) :
    ([16, 24, 32].any (fun i => decide (n = i)) = true) ↔ (n = 16 ∨ n = 24 ∨ n = 32) := by
  simp

theorem SecretBytes_of_decode {secret b : Bytes}
    (h : RawURLEncoding.DecodeString (TrimRight secret 61) = some b)
    (hlen : b.length = 16 ∨ b.length = 24 ∨ b.length = 32) : SecretBytes secret = b := by
  unfold SecretBytes
  rw [h]
  simp only []
  rw [if_pos ((aes_any _).2 hlen)]

theorem SecretBytes_of_not_decode {secret : Bytes}
    (h : ∀ b, RawURLEncoding.DecodeString (TrimRight secret 61) = some b →
      ¬ (b.length = 16 ∨ b.length = 24 ∨ b.length = 32)) : SecretBytes secret = secret := by
  unfold SecretBytes
  cases hd : RawURLEncoding.DecodeString (TrimRight secret 61) with
  | none => rfl
  | some b =>
    simp only []
    rw [if_neg (fun hany => h b hd ((aes_any _).1 hany))]

/-- C12: let `s` be the secret with all trailing `=` removed, that is,
`secret = s ++ "=…="` and `s` does not end in `=` (such an `s` exists for every
secret). If `s` decodes as unpadded URL-safe base64 to exactly 16, 24 or 32
bytes, `SecretBytes(secret)` is that byte sequence; otherwise, on a decoding
error or any other decoded length, it is the secret itself, trailing `=`
included. `SecretBytes` returns a result for every string. -/
theorem SecretBytes_reference (secret : Bytes) :
    (∃ s k, secret = s ++ List.replicate k 61 ∧ s.getLast? ≠ some 61) ∧
    ∀ s k, secret = s ++ List.replicate k 61 → s.getLast? ≠ some 61 →
      (∀ b, RawURLEncoding.DecodeString s = some b →
        (b.length = 16 ∨ b.length = 24 ∨ b.length = 32) → SecretBytes secret = b) ∧
      ((¬ ∃ b, RawURLEncoding.DecodeString s = some b ∧
          (b.length = 16 ∨ b.length = 24 ∨ b.length = 32)) → SecretBytes secret = secret) := by
  refine ⟨?_, ?_⟩
  · obtain ⟨k, h1, h2⟩ := TrimRight_decomposition secret 61
    exact ⟨TrimRight secret 61, k, h1, h2⟩
  · intro s k h1 h2
    have ht : TrimRight secret 61 = s := TrimRight_unique secret s k 61 h1 h2
    refine ⟨?_, ?_⟩
    · intro b hb hlen
      exact SecretBytes_of_decode (by rw [ht]; exact hb) hlen
    · intro hno
      apply SecretBytes_of_not_decode
      intro b hb hlen
      rw [ht] at hb
      exact hno ⟨b, hb, hlen⟩

/-- C13: for every byte sequence `b` of length 16, 24 or 32, `SecretBytes` of
the URL-safe base64 encoding of `b` is `b`, with the `=` padding and without
it. -/
theorem SecretBytes_roundtrip (b : Bytes)
    (h : b.length = 16 ∨ b.length = 24 ∨ b.length = 32) :
    SecretBytes (URLEncoding.EncodeToString b) = b ∧
    SecretBytes (RawURLEncoding.EncodeToString b) = b := by
  have hraw : TrimRight (RawURLEncoding.EncodeToString b) 61 = RawURLEncoding.EncodeToString b :=
    TrimRight_of_forall_ne _ _ (pad_not_mem_RawEncodeToString b)
  refine ⟨?_, ?_⟩
  · apply SecretBytes_of_decode _ h
    rw [EncodeToString_eq_raw_append, TrimRight_append_replicate, hraw,
      RawDecodeString_EncodeToString]
  · apply SecretBytes_of_decode _ h
    rw [hraw, RawDecodeString_EncodeToString]

theorem SecretBytes_roundtrip_witness :
    ((List.replicate 16 (7 : Byte)).length = 16 ∨ (List.replicate 16 (7 : Byte)).length = 24 ∨
      (List.replicate 16 (7 : Byte)).length = 32) ∧
    SecretBytes (URLEncoding.EncodeToString (List.replicate 16 (7 : Byte)))
      = List.replicate 16 (7 : Byte) ∧
    SecretBytes (RawURLEncoding.EncodeToString (List.replicate 16 (7 : Byte)))
      = List.replicate 16 (7 : Byte) :=
  ⟨Or.inl (by decide), SecretBytes_roundtrip (List.replicate 16 (7 : Byte)) (Or.inl (by decide))⟩

/-- C11, as stated, fails: the encoded-value field of a cookie signed for the
one-byte payload 0xff is `_w==`, in the URL-safe alphabet; the standard
alphabet encodes it as `/w==`, which `Validate`'s decoder rejects. -/
theorem SignedValue_not_standard_alphabet :
    (Split (SignedValue (ascii "seed") (ascii "key") [255] (Time.ofUnix 1000)) pipe).head?
      = some (ascii "_w==") ∧
    StdEncoding.EncodeToString [255] = ascii "/w==" ∧
    URLEncoding.DecodeString (StdEncoding.EncodeToString [255]) = none := by
  refine ⟨?_, by decide, by decide⟩
  rw [Split_SignedValue]
  decide

/-- C11 (amended): the encoded-value field and the signature field of
`SignedValue`'s output are the base64 encodings, in the URL-safe alphabet
(`A-Z a-z 0-9 - _`) with `=` padding, of the payload and of the HMAC digest:
every character of the two fields is one of these, `+` and `/` never occur and
each field is a whole number of four-character groups; and `Validate` decodes
the value field and the signature field of a cookie it accepts with that same
URL-safe padded encoding, which has no entry for `+` and `/`. -/
theorem SignedValue_url_safe_alphabet (seed key value : Bytes) (now : Time) :
    (∃ E T S, Split (SignedValue seed key value now) pipe = [E, T, S] ∧
      E = URLEncoding.EncodeToString value ∧
      S = URLEncoding.EncodeToString (hmac.Sum sha256New seed (key ++ E ++ T)) ∧
      (∀ c ∈ E, c ∈ urlSafeChars) ∧ (∀ c ∈ S, c ∈ urlSafeChars) ∧
      (43 : Byte) ∉ E ∧ (47 : Byte) ∉ E ∧ (43 : Byte) ∉ S ∧ (47 : Byte) ∉ S ∧
      E.length % 4 = 0 ∧ S.length % 4 = 0) ∧
    (∀ (cookie : Cookie) (seed' : Bytes) (e : Duration) (now' : Time),
      (Validate cookie seed' e now').2.2 = true →
        ∃ v ts sig, Split cookie.Value pipe = [v, ts, sig] ∧
          URLEncoding.DecodeString v = some (Validate cookie seed' e now').1 ∧
          (URLEncoding.DecodeString sig = some (hmac.Sum sha256New seed' (cookie.Name ++ v ++ ts)) ∨
           URLEncoding.DecodeString sig = some (hmac.Sum sha1New seed' (cookie.Name ++ v ++ ts)))) ∧
    URLEncoding.decodeMap 43 = none ∧ URLEncoding.decodeMap 47 = none := by
  have hmem : ∀ src : Bytes, ∀ c ∈ URLEncoding.EncodeToString src, c ∈ urlSafeChars :=
    fun src => URLEncoding_forall_encoded (fun c => c ∈ urlSafeChars)
      (fun v hv => by
        have : ∀ v : Fin 64, URLEncoding.encodeChar v.val ∈ urlSafeChars := by decide
        exact this ⟨v, hv⟩) (by decide) src
  have hplus : ∀ src : Bytes, (43 : Byte) ∉ URLEncoding.EncodeToString src :=
    fun src h => absurd (hmem src _ h) (by decide)
  have hslash : ∀ src : Bytes, (47 : Byte) ∉ URLEncoding.EncodeToString src :=
    fun src h => absurd (hmem src _ h) (by decide)
  have hlen : ∀ src : Bytes, (URLEncoding.EncodeToString src).length % 4 = 0 := by
    intro src
    rw [EncodeToString_length]
    omega
  refine ⟨⟨_, _, _, Split_SignedValue seed key value now, rfl, ?_, hmem _, ?_, hplus _,
    hslash _, ?_, ?_, hlen _, ?_⟩, ?_, by decide, by decide⟩
  · simp [cookieSignature, flatten_three]
  · exact fun c hc => hmem _ c hc
  · exact hplus _
  · exact hslash _
  · exact hlen _
  · intro cookie seed' e now' hok
    obtain ⟨v, ts, sig, n, raw, hA⟩ := Accepts_of_Validate_ok hok
    have hres := Validate_of_Accepts hA
    obtain ⟨hsp, hsig, -, -, -, hv⟩ := hA
    exact ⟨v, ts, sig, hsp, by rw [hres]; exact hv, hsig⟩

/-- C15, as stated, fails: the secret of 32 characters `A` is the URL-safe
base64 encoding of 24 zero bytes, and `SecretBytes` returns these 24 bytes, not
the 32 bytes of the secret; the secret of 24 characters `AAAAAAAAAAAAAAAAAAAAAA==`
is returned as the 16 zero bytes it encodes. -/
theorem SecretBytes_decodes_literal_32 :
    (ascii "AAAAAAAAAAAAAAAAAAAAAAAAAAAAAAAA").length = 32 ∧
    SecretBytes (ascii "AAAAAAAAAAAAAAAAAAAAAAAAAAAAAAAA") = List.replicate 24 0 ∧
    SecretBytes (ascii "AAAAAAAAAAAAAAAAAAAAAAAAAAAAAAAA")
      ≠ ascii "AAAAAAAAAAAAAAAAAAAAAAAAAAAAAAAA" ∧
    (ascii "AAAAAAAAAAAAAAAAAAAAAA==").length = 24 ∧
    SecretBytes (ascii "AAAAAAAAAAAAAAAAAAAAAA==") = List.replicate 16 0 := by
  decide

/-- C15 (amended): for every secret string of exactly 16, 24 or 32 characters
`SecretBytes` returns the bytes of the secret itself, unless the secret without
its trailing `=` decodes as unpadded URL-safe base64 to exactly 16, 24 or 32
bytes: it is kept literal if and only if it does not so decode. A secret of 16
characters never does. -/
theorem SecretBytes_literal (secret : Bytes)
    (hlen : secret.length = 16 ∨ secret.length = 24 ∨ secret.length = 32) :
    (SecretBytes secret = secret ↔
      ¬ ∃ b, RawURLEncoding.DecodeString (TrimRight secret 61) = some b ∧
        (b.length = 16 ∨ b.length = 24 ∨ b.length = 32)) ∧
    (secret.length = 16 → SecretBytes secret = secret) := by
  have hshort : ∀ b, RawURLEncoding.DecodeString (TrimRight secret 61) = some b →
      4 * b.length ≤ 3 * secret.length := by
    intro b hb
    have h1 := RawDecodeString_length_le _ _ hb
    have h2 := TrimRight_length_le secret 61
    omega
  refine ⟨⟨?_, ?_⟩, ?_⟩
  · rintro heq ⟨b, hb, hblen⟩
    have hsb := SecretBytes_of_decode hb hblen
    rw [heq] at hsb
    have := hshort b hb
    rw [← hsb] at this
    omega
  · intro hno
    apply SecretBytes_of_not_decode
    intro b hb hblen
    exact hno ⟨b, hb, hblen⟩
  · intro h16
    apply SecretBytes_of_not_decode
    intro b hb
    have := hshort b hb
    omega

theorem SecretBytes_literal_witness :
    ((ascii "my 32 character long passphrase!").length = 16 ∨
      (ascii "my 32 character long passphrase!").length = 24 ∨
      (ascii "my 32 character long passphrase!").length = 32) ∧
    ((SecretBytes (ascii "my 32 character long passphrase!")
        = ascii "my 32 character long passphrase!" ↔
      ¬ ∃ b, RawURLEncoding.DecodeString
          (TrimRight (ascii "my 32 character long passphrase!") 61) = some b ∧
        (b.length = 16 ∨ b.length = 24 ∨ b.length = 32)) ∧
    ((ascii "my 32 character long passphrase!").length = 16 →
      SecretBytes (ascii "my 32 character long passphrase!")
        = ascii "my 32 character long passphrase!")) :=
  ⟨Or.inr (Or.inr (by decide)),
    SecretBytes_literal (ascii "my 32 character long passphrase!")
      (Or.inr (Or.inr (by decide)))⟩

/-- C16: for every secret string of at most 21 characters `SecretBytes` returns
the bytes of the secret unchanged: whatever such a string decodes to has at
most 15 bytes. -/
theorem SecretBytes_short (secret : Bytes) (h : secret.length ≤ 21) :
    SecretBytes secret = secret ∧
    ∀ b, RawURLEncoding.DecodeString (TrimRight secret 61) = some b → b.length ≤ 15 := by
  have hb : ∀ b, RawURLEncoding.DecodeString (TrimRight secret 61) = some b → b.length ≤ 15 := by
    intro b hb
    have h1 := RawDecodeString_length_le _ _ hb
    have h2 := TrimRight_length_le secret 61
    omega
  refine ⟨?_, hb⟩
  apply SecretBytes_of_not_decode
  intro b hd
  have := hb b hd
  omega

theorem SecretBytes_short_witness :
    (ascii "AAAAAAAAAAAAAAAAAAAA").length ≤ 21 ∧
    SecretBytes (ascii "AAAAAAAAAAAAAAAAAAAA") = ascii "AAAAAAAAAAAAAAAAAAAA" ∧
    ∀ b, RawURLEncoding.DecodeString (TrimRight (ascii "AAAAAAAAAAAAAAAAAAAA") 61) = some b →
      b.length ≤ 15 :=
  ⟨by decide, SecretBytes_short (ascii "AAAAAAAAAAAAAAAAAAAA") (by decide)⟩

/-- C17 fails on the code: the comment in `Validate` gives the window as
`(Now()-expiration, Now()]`, but the condition that follows it is
`t.Before(time.Now().Add(time.Minute*5))`. A cookie signed four minutes after
the clock reading (second 1240 against second 1000) has a timestamp strictly
later than the clock reading and is accepted. -/
theorem Validate_future_timestamp_accepted :
    (Time.ofUnix 1000).ns < (Time.ofUnix 1240).ns ∧
    Validate ⟨ascii "key", SignedValue (ascii "seed") (ascii "key") (ascii "v0")
        (Time.ofUnix 1240)⟩ (ascii "seed") Hour (Time.ofUnix 1000)
      = (ascii "v0", Time.ofUnix 1240, true) := by
  refine ⟨by decide, ?_⟩
  rw [Validate_SignedValue _ _ _ _ (by decide)]
  decide

theorem checkSignature_congr (sig key : Bytes) (args args' : List Bytes)
    (h : args.flatten = args'.flatten) :
    checkSignature sig key args = checkSignature sig key args' := by
  unfold checkSignature cookieSignature
  rw [h]

/-- C18: the signature check sees only the concatenation of its fields: for
every seed and signature, two triples `(name, v, ts)` and `(name', v', ts')`
with `name ++ v ++ ts = name' ++ v' ++ ts'` get the same answer from
`checkSignature`; hence the signature issued for the cookie name `N ++ p` with
encoded value `E` also passes the check for the name `N` with value `p ++ E`. -/
theorem checkSignature_unbound_fields (seed sig name v ts name' v' ts' : Bytes)
    (h : name ++ v ++ ts = name' ++ v' ++ ts') :
    checkSignature sig seed [name, v, ts] = checkSignature sig seed [name', v', ts'] ∧
    ∀ N p E T : Bytes,
      checkSignature (cookieSignature sha256New seed [N ++ p, E, T]) seed [N, p ++ E, T]
        = true := by
  refine ⟨checkSignature_congr _ _ _ _ (by rw [flatten_three, flatten_three, h]), ?_⟩
  intro N p E T
  rw [checkSignature_congr _ _ [N, p ++ E, T] [N ++ p, E, T]
    (by simp [flatten_three])]
  exact checkSignature_cookieSignature _ _ _ (Or.inl rfl)

theorem checkSignature_unbound_fields_witness :
    ascii "ab" ++ ascii "cd" ++ ascii "12" = ascii "a" ++ ascii "bcd" ++ ascii "12" ∧
    (checkSignature (ascii "c2ln") (ascii "seed") [ascii "ab", ascii "cd", ascii "12"]
        = checkSignature (ascii "c2ln") (ascii "seed") [ascii "a", ascii "bcd", ascii "12"] ∧
      ∀ N p E T : Bytes,
        checkSignature (cookieSignature sha256New (ascii "seed") [N ++ p, E, T]) (ascii "seed")
          [N, p ++ E, T] = true) :=
  ⟨by decide,
    checkSignature_unbound_fields (ascii "seed") (ascii "c2ln") (ascii "ab") (ascii "cd")
      (ascii "12") (ascii "a") (ascii "bcd") (ascii "12") (by decide)⟩

/-- C19: for every payload `v`, seed, key, every time `t`, with or without a
sub-second part, and every expiration of at least one second, `Validate` at the
clock reading `t` of the cookie `SignedValue(seed, key, v, t)` returns
`ok = true`, the value `v` and the timestamp `time.Unix(t.Unix(), 0)`, `t`
truncated down to whole seconds, which differs from `t` whenever `t` has a
sub-second part. -/
theorem Validate_SignedValue_truncates (seed key v : Bytes) (t : Time) (e : Duration)
    (hrep : t.representable) (he : Second ≤ e) :
    Validate ⟨key, SignedValue seed key v t⟩ seed e t = (v, Time.ofUnix t.Unix, true) ∧
    (Time.ofUnix t.Unix).ns ≤ t.ns ∧ t.ns < (Time.ofUnix t.Unix).ns + Second ∧
    (t.ns % 1000000000 ≠ 0 → Time.ofUnix t.Unix ≠ t) := by
  have he' : (1000000000 : Int) ≤ e := he
  have h := Time_Unix_mul t
  refine ⟨?_, ?_, ?_, ?_⟩
  · rw [Validate_SignedValue_of_ne _ _ _ _ hrep (ne_minInt64_of_pos (by omega)), if_pos (by omega)]
  · simp only [Time.ofUnix]; exact h.1
  · simp only [Time.ofUnix, Second]; exact h.2
  · intro hsub heq
    have := congrArg Time.ns heq
    simp only [Time.ofUnix, Time.Unix] at this
    omega

theorem Validate_SignedValue_truncates_witness :
    (Time.mk 1000500000000).representable ∧ Second ≤ Hour ∧
    (Validate ⟨ascii "key", SignedValue (ascii "seed") (ascii "key") (ascii "v0")
        (Time.mk 1000500000000)⟩ (ascii "seed") Hour (Time.mk 1000500000000)
      = (ascii "v0", Time.ofUnix (Time.mk 1000500000000).Unix, true) ∧
    (Time.ofUnix (Time.mk 1000500000000).Unix).ns ≤ (Time.mk 1000500000000).ns ∧
    (Time.mk 1000500000000).ns < (Time.ofUnix (Time.mk 1000500000000).Unix).ns + Second ∧
    ((Time.mk 1000500000000).ns % 1000000000 ≠ 0 →
      Time.ofUnix (Time.mk 1000500000000).Unix ≠ Time.mk 1000500000000)) :=
  ⟨by decide, by decide,
    Validate_SignedValue_truncates (ascii "seed") (ascii "key") (ascii "v0")
      (Time.mk 1000500000000) Hour (by decide) (by decide)⟩

end encryption
